import Mathlib

/-!
Verification development for the Network-Translator repository.

Shallow embedding of the core translation pipeline:
  * `src/src/utils/text_formatter.py`  — pure text transforms (TextFormatter);
  * `src/src/translator/model.py`      — TranslationModel input validation and
    backend invocation (the neural generation pipeline itself is abstracted as
    an oracle function);
  * `src/src/translator/translator.py` — Translator caching/orchestration:
    translate, translate_batch, cache cleanup/save, change_model, cache load.

Python strings are modelled as `String` / `List Char` (one `Char` per code
point, matching Python's `len` and indexing).  Python exceptions are modelled
with `Except`; object-state mutation is modelled by explicit state passing,
with functions returning the post-state together with the outcome so that
mutations that happen before a raise are visible.  Timestamps (`time.time()`)
are modelled as `Int` seconds passed in as a `now` argument.
-/

namespace NT

/-- Error taxonomy of the Python code: `ValueError` and `RuntimeError` raised
by the code itself, and the `TypeError` raised by the standard library when
`functools.lru_cache` tries to hash an unhashable argument, each carrying a
message. -/
inductive Err where
  | valueError (msg : String)
  | runtimeError (msg : String)
  | typeError (msg : String)
deriving DecidableEq

/-! ### text_formatter.py -/

/-- The whitespace class used by Python's `\s` regexes and `str.strip()`,
restricted to the ASCII whitespace characters (the source also treats some
further Unicode spaces as whitespace; the texts in this development are within
the ASCII range, where the two notions coincide).  11 is `\x0b` (vertical
tab), 12 is `\x0c` (form feed). -/
def pyIsSpace (c : Char) : Bool :=
  c = ' ' || c = '\t' || c = '\n' || c = '\r' || c = Char.ofNat 11 || c = Char.ofNat 12

/-- Python `str.strip()`: drop leading and trailing whitespace. -/
def pyStrip (l : List Char) : List Char :=
  ((l.dropWhile pyIsSpace).reverse.dropWhile pyIsSpace).reverse

/-- `str.strip()` on `String`s. -/
def pyStripStr (s : String) : String :=
  String.mk (pyStrip s.data)

/-- Formatter text-length ceiling (`MAX_TEXT_LENGTH` in text_formatter.py). -/
def FMT_MAX_TEXT_LENGTH : Nat := 1000000

/-- `TextFormatter._validate_text`: rejects empty/whitespace-only text and
text longer than `MAX_TEXT_LENGTH` (the `isinstance` check is statically
guaranteed by typing; `len(text) < MIN_TEXT_LENGTH` with `MIN_TEXT_LENGTH = 1`
is subsumed by the strip check). -/
def fmtValidateText (l : List Char) : Option Err :=
  if pyStrip l = [] then
    some (.valueError "Text cannot be empty or contain only whitespace")
  else if FMT_MAX_TEXT_LENGTH < l.length then
    some (.valueError "Text is too long (maximum 1000000 characters)")
  else
    none

/-- `TextFormatter._validate_result`: the result must not be empty or
whitespace-only. -/
def fmtValidateResult (l : List Char) : Except Err (List Char) :=
  if pyStrip l = [] then
    .error (.valueError "Result cannot be empty or contain only whitespace")
  else
    .ok l

/-- The ASCII apostrophe character `'` (code point 39). -/
def apos : Char := Char.ofNat 39

/-- Double-quote pass of `convert_smart_quotes` (to_smart=True): each `"` is
replaced alternately by `«` and `»`, tracked by the `in_quote` flag. -/
def sqDouble (inQ : Bool) : List Char → List Char
  | [] => []
  | c :: cs =>
    if c = '"' then (if inQ then '»' else '«') :: sqDouble (!inQ) cs
    else c :: sqDouble inQ cs

/-- The dead string literal of text_formatter.py lines 182-185: the source
writes `result += '''` on two lines, which Python parses as one triple-quoted
string swallowing the intervening `in_quote = False` / `else:` lines. -/
def sqDeadStr : List Char :=
  ("\n                            in_quote = False\n                        else:\n                            result += ").data

/-- Apostrophe pass of `convert_smart_quotes`, embedded exactly as Python
parses it (see `sqDeadStr`): on an apostrophe, if `in_quote` is set the dead
string is appended and `in_quote` set to True, otherwise nothing at all is
appended (there is no `else` branch — it was swallowed into the string
literal).  Since `in_quote` starts False and is only ever set inside the
unreachable branch, every apostrophe is silently deleted. -/
def sqSingle (inQ : Bool) : List Char → List Char
  | [] => []
  | c :: cs =>
    if c = apos then
      if inQ then sqDeadStr ++ sqSingle true cs
      else sqSingle inQ cs
    else c :: sqSingle inQ cs

/-- `TextFormatter.convert_smart_quotes(text, to_smart=True)`: validate, run
the double-quote pass then the apostrophe pass (both starting with
`in_quote = False`), validate the result. -/
def convert_smart_quotes (l : List Char) : Except Err (List Char) :=
  match fmtValidateText l with
  | some e => .error e
  | none => fmtValidateResult (sqSingle false (sqDouble false l))

/-- The punctuation class of the `russian.space_before` pattern
`[,.!?:;]`. -/
def isPunct6 (c : Char) : Bool :=
  c = ',' || c = '.' || c = '!' || c = '?' || c = ':' || c = ';'

/-- The punctuation class of fix_common_issues' patterns `[.,!?]`. -/
def isPunct4 (c : Char) : Bool :=
  c = '.' || c = ',' || c = '!' || c = '?'

/-- `re.sub(r'\s+<dash>\s+', ' ', text)` (the `em_dash` and `dash` patterns of
the russian style, substituted with a single space).  A match is a maximal
whitespace run, the dash character, and at least one further whitespace
character (consumed greedily); scanning resumes after the match, and no match
can start strictly inside a whitespace run whose following character is not
the dash.  Implemented with a fuel argument equal to the input length (each
recursive call consumes at least one character, so the fuel never runs
out). -/
def subWsDashWsGo (dash : Char) : Nat → List Char → List Char
  | 0, l => l
  | _ + 1, [] => []
  | fuel + 1, c :: cs =>
    if pyIsSpace c then
      match List.dropWhile pyIsSpace (c :: cs) with
      | d :: r2 =>
        if d = dash then
          match r2 with
          | e :: _ =>
            if pyIsSpace e then
              ' ' :: subWsDashWsGo dash fuel (List.dropWhile pyIsSpace r2)
            else
              List.takeWhile pyIsSpace (c :: cs) ++ d :: subWsDashWsGo dash fuel r2
          | [] => List.takeWhile pyIsSpace (c :: cs) ++ [d]
        else
          List.takeWhile pyIsSpace (c :: cs) ++ subWsDashWsGo dash fuel (d :: r2)
      | [] => List.takeWhile pyIsSpace (c :: cs)
    else c :: subWsDashWsGo dash fuel cs

/-- Wrapper running `subWsDashWsGo` with sufficient fuel. -/
def subWsDashWs (dash : Char) (l : List Char) : List Char :=
  subWsDashWsGo dash l.length l

/-- `re.sub(r'([,;])(\S)', r'\1 \2', text)` (the russian `space_after`
pattern): insert a space after `,` or `;` when followed by a non-space;
the two matched characters are consumed together. -/
def spaceAfterComma : List Char → List Char
  | [] => []
  | [c] => [c]
  | c :: d :: rest =>
    if (c = ',' || c = ';') && !pyIsSpace d then
      c :: ' ' :: d :: spaceAfterComma rest
    else
      c :: spaceAfterComma (d :: rest)

/-- State of the reversed scan in `subSpaceBefore`. -/
inductive SbState where
  | norm
  | afterPunct
  | dropWs

/-- Reversed-order scan for `re.sub(r'\s+([,.!?:;])', r' \1', text)`: in the
reversed string, after a punctuation character, the first whitespace character
is replaced by a single `' '` and the rest of the run is dropped.  This is
the reversal of replacing each maximal whitespace run immediately preceding a
punctuation character by one space (a match cannot start strictly inside such
a run, and the regex consumes the run wholly). -/
def sbGo : SbState → List Char → List Char
  | _, [] => []
  | st, c :: cs =>
    if isPunct6 c then c :: sbGo .afterPunct cs
    else if pyIsSpace c then
      match st with
      | .afterPunct => ' ' :: sbGo .dropWs cs
      | .dropWs => sbGo .dropWs cs
      | .norm => c :: sbGo .norm cs
    else c :: sbGo .norm cs

/-- `re.sub(r'\s+([,.!?:;])', r' \1', text)` via the reversed scan. -/
def subSpaceBefore (l : List Char) : List Char :=
  (sbGo .norm l.reverse).reverse

/-- `TextFormatter.convert_punctuation(text, "russian")`: validate, then apply
the four compiled patterns in insertion order — `em_dash`, `space_after`,
`space_before`, `dash` — and validate the result.  (The style check passes:
"russian" is a known style.) -/
def conv_punct_ru (l : List Char) : Except Err (List Char) :=
  match fmtValidateText l with
  | some e => .error e
  | none =>
      fmtValidateResult
        (subWsDashWs '-' (subSpaceBefore (spaceAfterComma (subWsDashWs '—' l))))

/-- `re.sub(r'\s+', ' ', text)`: every maximal whitespace run becomes a single
space.  Structural two-character-window formulation: a whitespace character
followed by more whitespace is dropped, the last character of a run emits the
single `' '`. -/
def collapseWs : List Char → List Char
  | [] => []
  | [c] => if pyIsSpace c then [' '] else [c]
  | c :: d :: rest =>
    if pyIsSpace c then
      if pyIsSpace d then collapseWs (d :: rest)
      else ' ' :: collapseWs (d :: rest)
    else c :: collapseWs (d :: rest)

/-- `TextFormatter.normalize_whitespace`: validate, collapse whitespace runs
to single spaces, strip, validate the result. -/
def normalize_whitespace (l : List Char) : Except Err (List Char) :=
  match fmtValidateText l with
  | some e => .error e
  | none => fmtValidateResult (pyStrip (collapseWs l))

/-- `re.sub(r'([.,!?])\1+', r'\1', text)`: collapse each maximal run of a
repeated punctuation character to a single occurrence (two-character-window
formulation: a punctuation character equal to its successor is dropped). -/
def collapsePunct : List Char → List Char
  | [] => []
  | [c] => [c]
  | c :: d :: rest =>
    if isPunct4 c && c = d then collapsePunct (d :: rest)
    else c :: collapsePunct (d :: rest)

/-- Reversed-order scan for `re.sub(r'\s+([.,!?])', r'\1', text)`: in the
reversed string, whitespace following a punctuation character (the reversal of
whitespace preceding it) is dropped; the flag stays set through the whole
run. -/
def delWsBPGo : Bool → List Char → List Char
  | _, [] => []
  | del, c :: cs =>
    if isPunct4 c then c :: delWsBPGo true cs
    else if pyIsSpace c then
      if del then delWsBPGo true cs else c :: delWsBPGo false cs
    else c :: delWsBPGo false cs

/-- `re.sub(r'\s+([.,!?])', r'\1', text)` via the reversed scan. -/
def delWsBeforePunct (l : List Char) : List Char :=
  (delWsBPGo false l.reverse).reverse

/-- `TextFormatter.fix_common_issues`: validate, collapse repeated
punctuation, delete whitespace before punctuation, collapse whitespace runs,
strip, validate the result. -/
def fix_common_issues (l : List Char) : Except Err (List Char) :=
  match fmtValidateText l with
  | some e => .error e
  | none => fmtValidateResult (pyStrip (collapseWs (delWsBeforePunct (collapsePunct l))))

/-- The four formatting toggles (`DEFAULT_OPERATIONS` /
`Translator.formatting_options`). -/
structure Ops where
  smart_quotes : Bool
  russian_punctuation : Bool
  normalize_whitespace : Bool
  fix_common_issues : Bool
deriving DecidableEq

/-- text_formatter.py `DEFAULT_OPERATIONS`: all four toggles on.  This is the
operations dict the body of `process_text` substitutes when it is called with
`operations=None`. -/
def DEFAULT_OPERATIONS : Ops := ⟨true, true, true, true⟩

/-- The BODY of `TextFormatter.process_text(text, operations)` (beneath its
`lru_cache` wrapper — see `process_text`), on character lists: validate the
input, apply the enabled transforms in the fixed order smart_quotes →
russian_punctuation → normalize_whitespace → fix_common_issues, validate the
final result.  (On the one call shape that reaches this body,
`operations=None`, the `_validate_operations` branch is not taken.) -/
def processTextL (o : Ops) (l : List Char) : Except Err (List Char) :=
  match fmtValidateText l with
  | some e => .error e
  | none =>
    match (if o.smart_quotes then convert_smart_quotes l else .ok l) with
    | .error e => .error e
    | .ok r1 =>
      match (if o.russian_punctuation then conv_punct_ru r1 else .ok r1) with
      | .error e => .error e
      | .ok r2 =>
        match (if o.normalize_whitespace then normalize_whitespace r2 else .ok r2) with
        | .error e => .error e
        | .ok r3 =>
          match (if o.fix_common_issues then fix_common_issues r3 else .ok r3) with
          | .error e => .error e
          | .ok r4 => fmtValidateResult r4

/-- `TextFormatter.process_text` as it is actually callable.  The method is
decorated with `@lru_cache(maxsize=1000)`; the wrapper builds its cache key by
hashing the arguments BEFORE the function body runs, so calling it with any
explicit operations dictionary (`some o` — what `Translator` always does,
passing its `formatting_options` dict, and the only way to select a
non-default toggle combination) raises `TypeError: unhashable type: 'dict'`
without validating or processing anything.  Only an `operations=None` call
(`none`) is hashable and runs the body, which then substitutes
`DEFAULT_OPERATIONS`. -/
def process_text (operations : Option Ops) (s : String) : Except Err String :=
  match operations with
  | some _ => .error (.typeError "unhashable type: 'dict'")
  | none =>
    match processTextL DEFAULT_OPERATIONS s.data with
    | .error e => .error e
    | .ok r => .ok (String.mk r)

/-! ### model.py — TranslationModel

The tokenizer/generate/decode pipeline is outside the verification scope (an
external ML runtime); it is abstracted as an oracle function
`gen : String → Except Err String` shared by the single and the batch entry
points (`model.generate` runs the same generation for both).  The state of a
`TranslationModel` is its `model_id` and whether model and tokenizer are
loaded; the `calls` field is instrumentation counting invocations of
`TranslationModel.translate` / `translate_batch` (the "call-count on a mock
backend" of the spec). -/

/-- model.py `MAX_TEXT_LENGTH`. -/
def MODEL_MAX_TEXT_LENGTH : Nat := 5000

/-- model.py `MAX_BATCH_TOTAL_LENGTH`. -/
def MAX_BATCH_TOTAL_LENGTH : Nat := 10000

/-- Mutable state of `TranslationModel`. -/
structure ModelState where
  model_id : String
  loaded : Bool
  calls : Nat
deriving DecidableEq

/-- `TranslationModel._validate_text`: rejects whitespace-only text and text
over `MAX_TEXT_LENGTH` (the `isinstance` check is statically guaranteed;
`len(text) < MIN_TEXT_LENGTH` with `MIN_TEXT_LENGTH = 1` is subsumed by the
strip check). -/
def validate_text (text : String) : Option Err :=
  if pyStripStr text = "" then
    some (.valueError "Text cannot be empty or contain only whitespace")
  else if MODEL_MAX_TEXT_LENGTH < text.length then
    some (.valueError "Text is too long (maximum 5000 characters)")
  else
    none

/-- Loop body of `TranslationModel._validate_batch`: per-text checks carrying
the index for the error message, accumulating the total length which is
checked at the end. -/
def validate_batch_go : Nat → Nat → List String → Option Err
  | _, total, [] =>
    if MAX_BATCH_TOTAL_LENGTH < total then
      some (.valueError "Total batch length exceeds maximum limit of 10000 characters")
    else
      none
  | i, total, t :: ts =>
    if pyStripStr t = "" then
      some (.valueError ("Text at index " ++ toString i ++ " cannot be empty or contain only whitespace"))
    else if MODEL_MAX_TEXT_LENGTH < t.length then
      some (.valueError ("Text at index " ++ toString i ++ " is too long (maximum 5000 characters)"))
    else
      validate_batch_go (i + 1) (total + t.length) ts

/-- `TranslationModel._validate_batch`. -/
def validate_batch (texts : List String) : Option Err :=
  if texts = [] then some (.valueError "Texts list cannot be empty")
  else validate_batch_go 0 0 texts

/-- `TranslationModel.translate`: counts the invocation, fails when the model
is not loaded, validates the input, then runs the generation oracle.  The
oracle's error models an inference exception (which the source wraps into a
`RuntimeError` and re-raises). -/
def mTranslate (gen : String → Except Err String) (ms : ModelState) (text : String) :
    ModelState × Except Err String :=
  let ms1 : ModelState := { ms with calls := ms.calls + 1 }
  if ms1.loaded = false then
    (ms1, .error (.runtimeError "Translation model is not loaded"))
  else
    match validate_text text with
    | some e => (ms1, .error e)
    | none => (ms1, gen text)

/-- Elementwise run of a fallible function over a list, failing at the first
error (a failing generation aborts the whole batch). -/
def mapExcept (f : String → Except Err String) : List String → Except Err (List String)
  | [] => .ok []
  | a :: as =>
    match f a with
    | .error e => .error e
    | .ok b =>
      match mapExcept f as with
      | .error e => .error e
      | .ok bs => .ok (b :: bs)

/-- `TranslationModel.translate_batch`: counts the invocation, fails when the
model is not loaded, validates the batch, then runs the generation oracle on
each element (the batched generate/decode is modelled as the elementwise
oracle). -/
def mTranslateBatch (gen : String → Except Err String) (ms : ModelState) (texts : List String) :
    ModelState × Except Err (List String) :=
  let ms1 : ModelState := { ms with calls := ms.calls + 1 }
  if ms1.loaded = false then
    (ms1, .error (.runtimeError "Translation model is not loaded"))
  else
    match validate_batch texts with
    | some e => (ms1, .error e)
    | none => (ms1, mapExcept gen texts)

/-! ### translator.py — cache data model -/

/-- translator.py constants. -/
def CACHE_LIMIT_DEFAULT : Nat := 5000

/-- `CACHE_SAVE_INTERVAL`. -/
def CACHE_SAVE_INTERVAL : Nat := 20

/-- `TEXT_HASH_THRESHOLD`. -/
def TEXT_HASH_THRESHOLD : Nat := 100

/-- `CACHE_EXPIRY_DAYS`. -/
def CACHE_EXPIRY_DAYS : Nat := 30

/-- `CACHE_CLEANUP_INTERVAL`. -/
def CACHE_CLEANUP_INTERVAL : Nat := 1000

/-- A cache entry as the code itself writes it (`Translator.translate` /
`translate_batch` store sites): all six keys are always present;
`translation_formatted` holds Python `None` (here `none`) when the entry was
stored unformatted.  (Entries loaded from disk are only validated to carry
`translation`/`model_id`/`timestamp`; the development models the entries the
program itself creates, whose key set is fixed — the source's
`'translation_raw' in cached` / `'translation_formatted' in cached` checks
are then always true, and their `else` fallbacks are dead.) -/
structure Entry where
  translation : String
  translation_raw : String
  translation_formatted : Option String
  model_id : String
  formatted : Bool
  timestamp : Int
deriving DecidableEq

/-- Python dict lookup (`cache[key]` / `key in cache`) on the
insertion-ordered association-list model of the dict. -/
def dictFind (k : String) : List (String × Entry) → Option Entry
  | [] => none
  | (k', v) :: rest => if k' = k then some v else dictFind k rest

/-- Python dict assignment `cache[key] = v`: replaces in place when the key
exists (keeping its position), otherwise appends at the end. -/
def dictInsert (k : String) (v : Entry) : List (String × Entry) → List (String × Entry)
  | [] => [(k, v)]
  | (k', v') :: rest =>
    if k' = k then (k, v) :: rest else (k', v') :: dictInsert k v rest

/-- Expiry test `current_time - timestamp > CACHE_EXPIRY_DAYS * 24 * 3600`. -/
def expiredAt (now ts : Int) : Bool :=
  (CACHE_EXPIRY_DAYS : Int) * 24 * 3600 < now - ts

/-- Insert an entry into a timestamp-sorted list, before the first strictly
newer entry (so that entries with equal timestamps keep their original order,
as Python's stable `sorted` does). -/
def insertByTs (kv : String × Entry) : List (String × Entry) → List (String × Entry)
  | [] => [kv]
  | kv' :: rest =>
    if kv.2.timestamp ≤ kv'.2.timestamp then kv :: kv' :: rest
    else kv' :: insertByTs kv rest

/-- Stable sort by timestamp ascending, modelling
`sorted(cache.items(), key=lambda x: x[1].get('timestamp', 0))`. -/
def sortByTs : List (String × Entry) → List (String × Entry)
  | [] => []
  | kv :: rest => insertByTs kv (sortByTs rest)

/-- Second phase of `Translator._cleanup_cache`: if the store is over the
limit, delete the `len - cache_limit` oldest-by-timestamp entries (the prefix
of the stable sort), by key. -/
def evictOldest (limit : Nat) (alive : List (String × Entry)) :
    List (String × Entry) :=
  if limit < alive.length then
    alive.filter (fun kv =>
      !(((sortByTs alive).take (alive.length - limit)).map Prod.fst).contains kv.1)
  else
    alive

/-- `Translator._cleanup_cache`: drop expired entries, then evict the oldest
beyond the limit. -/
def cleanupCache (now : Int) (limit : Nat) (cache : List (String × Entry)) :
    List (String × Entry) :=
  evictOldest limit (cache.filter (fun kv => !expiredAt now kv.2.timestamp))

/-- `Translator.formatting_options` is an `Ops`; the full mutable state of a
`Translator`: the inner model state, the current model id, the cache
configuration and store, the operation counter since the last save, and the
GPU flag (the `model_metadata` of the owned `ModelManager` is carried for
`change_model`). -/
structure ModelMeta where
  downloaded : Bool
  gpu_required : Bool
  local_path : Option String
deriving DecidableEq

/-- Lookup in the model-metadata dict. -/
def metaFind (k : String) : List (String × ModelMeta) → Option ModelMeta
  | [] => none
  | (k', v) :: rest => if k' = k then some v else metaFind k rest

/-- Mutable state of a `Translator`. -/
structure TransState where
  ms : ModelState
  current_model_id : String
  cache_enabled : Bool
  cache_limit : Nat
  cache : List (String × Entry)
  cache_ops : Nat
  opts : Ops
  gpu_available : Bool
  model_metadata : List (String × ModelMeta)
deriving DecidableEq

/-- The abstract collaborators of the translator: the generation pipeline,
the MD5 hex digest used for long cache keys, whether loading a given model's
weights and tokenizer succeeds, and the (validated) on-disk cache contents
per model id, read on model switch. -/
structure Oracle where
  gen : String → Except Err String
  md5hex : String → String
  loadOk : String → Bool
  diskCache : String → List (String × Entry)

/-- `Translator._get_cache_key`: the text itself for short texts, its MD5 hex
digest beyond `TEXT_HASH_THRESHOLD` characters. -/
def cacheKey (md5hex : String → String) (text : String) : String :=
  if TEXT_HASH_THRESHOLD < text.length then md5hex text else text

/-- In-memory effect of `Translator._save_cache`: no-op when the cache is
disabled; otherwise runs `_cleanup_cache` when over `cache_limit`, writes the
store to disk (outside this model), and resets `cache_operations` to 0. -/
def saveCacheMem (now : Int) (st : TransState) : TransState :=
  if st.cache_enabled = false then st
  else
    let c :=
      if st.cache_limit < st.cache.length then cleanupCache now st.cache_limit st.cache
      else st.cache
    { st with cache := c, cache_ops := 0 }

/-! ### translator.py — translate -/

/-- The cache-hit lookup of `Translator.translate` / `translate_batch`: the
entry under the text's key, provided the cache is enabled and the entry's
`model_id` matches the current model (otherwise a miss). -/
def hitEntry (md5hex : String → String) (st : TransState) (text : String) : Option Entry :=
  if st.cache_enabled then
    match dictFind (cacheKey md5hex text) st.cache with
    | some e => if e.model_id = st.current_model_id then some e else none
    | none => none
  else
    none

/-- `Translator.translate(text, apply_formatting)`.  Returns the post-state
together with the outcome, so that mutations preceding a raise are visible.
The result string is an `Option String` because the source can return the
entry's `translation_formatted` value, which is Python `None` for entries
stored unformatted and never re-formatted — on every path the code itself
reaches for its own entries the result is `some`.

On a hit (entry present, model id matches):
  * formatting requested but entry unformatted: the source calls the
    `lru_cache`-wrapped `process_text` with the `formatting_options` dict,
    which always raises `TypeError` before the body runs — so this branch
    never returns, computes, or stores a formatted variant (the store-back
    lines after the call are dead); the state is unchanged at the raise;
  * formatting not requested but entry formatted: return `translation_raw`
    (the key is always present for code-written entries, so the source's
    fallback to `translation` is dead);
  * formatting requested and entry formatted: return `translation_formatted`
    (key always present; the source's reformat-fallback is dead);
  * otherwise return `translation`.
On a miss: call the backend, then format if requested — again through the
wrapped `process_text` with the dict, which raises `TypeError` AFTER the
backend call and before the store — otherwise store the new entry, bump
`cache_operations`, and run the periodic save (and the periodic cleanup,
which the save interval of 20 < 1000 makes unreachable here). -/
def translate (P : Oracle) (now : Int) (st : TransState) (text : String)
    (apply_fmt : Bool) : TransState × Except Err (Option String) :=
  if text = "" then (st, .ok (some ""))
  else
    match hitEntry P.md5hex st text with
    | some e =>
      if apply_fmt && !e.formatted then
        match process_text (some st.opts) e.translation with
        | .error er => (st, .error er)
        | .ok t =>
          let e' := { e with translation_formatted := some t, formatted := true }
          ({ st with cache := dictInsert (cacheKey P.md5hex text) e' st.cache },
           .ok (some t))
      else if !apply_fmt && e.formatted then
        (st, .ok (some e.translation_raw))
      else if apply_fmt && e.formatted then
        (st, .ok e.translation_formatted)
      else
        (st, .ok (some e.translation))
    | none =>
      let msr := mTranslate P.gen st.ms text
      let st1 := { st with ms := msr.1 }
      match msr.2 with
      | .error er => (st1, .error er)
      | .ok raw =>
        match (if apply_fmt then process_text (some st1.opts) raw else .ok raw) with
        | .error er => (st1, .error er)
        | .ok fm =>
          if st1.cache_enabled then
            let e : Entry :=
              { translation := fm, translation_raw := raw,
                translation_formatted := if apply_fmt then some fm else none,
                model_id := st1.current_model_id, formatted := apply_fmt,
                timestamp := now }
            let st2 := { st1 with
              cache := dictInsert (cacheKey P.md5hex text) e st1.cache,
              cache_ops := st1.cache_ops + 1 }
            let st3 := if CACHE_SAVE_INTERVAL ≤ st2.cache_ops then saveCacheMem now st2 else st2
            let st4 :=
              if CACHE_CLEANUP_INTERVAL ≤ st3.cache_ops then
                { st3 with cache := cleanupCache now st3.cache_limit st3.cache, cache_ops := 0 }
              else st3
            (st4, .ok (some fm))
          else
            (st1, .ok (some fm))

/-! ### translator.py — translate_batch

The source builds one `translations` list containing `None` placeholders at
the positions recorded in `uncached_indices`, then scatters the backend
results back by those indices.  Since the indices are exactly the positions
of the placeholders in increasing order and the zip walks them in the same
order, this is modelled positionally: the first pass yields one `BItem` per
input — `done r` for positions answered from the cache (or empty inputs),
`todo text` for positions to be sent to the backend — and the scatter
replaces the `todo`s left to right with the backend results. -/

/-- Per-position outcome of the first (cache) pass of `translate_batch`. -/
inductive BItem where
  | done (r : Option String)
  | todo (text : String)
deriving DecidableEq

/-- First pass of `Translator.translate_batch` (the cache-enabled loop):
empty inputs answer `""` directly; cache hits are answered like in
`translate`, except that the materialize-on-hit branch passes
`translation_raw` (present for all code-written entries; the source's
`translation` fallback is dead) to the `lru_cache`-wrapped `process_text`
with the options dict — which always raises `TypeError`, aborting the whole
call with no cache mutation (the store-back lines after it are dead).  Misses
are recorded as `todo`.  On a raise inside the loop the error propagates; the
states and items only matter on successful runs, so the partially mutated
state carried by a Python raise is not returned here. -/
def batchPass (P : Oracle) (apply_fmt : Bool) :
    TransState → List String → Except Err (TransState × List BItem)
  | st, [] => .ok (st, [])
  | st, text :: rest =>
    if text = "" then
      match batchPass P apply_fmt st rest with
      | .error e => .error e
      | .ok (st2, its) => .ok (st2, .done (some "") :: its)
    else
      match hitEntry P.md5hex st text with
      | some e =>
        if apply_fmt && !e.formatted then
          match process_text (some st.opts) e.translation_raw with
          | .error er => .error er
          | .ok t =>
            let e' := { e with translation_formatted := some t, formatted := true }
            let st' := { st with cache := dictInsert (cacheKey P.md5hex text) e' st.cache }
            match batchPass P apply_fmt st' rest with
            | .error e2 => .error e2
            | .ok (st2, its) => .ok (st2, .done (some t) :: its)
        else if !apply_fmt && e.formatted then
          match batchPass P apply_fmt st rest with
          | .error e2 => .error e2
          | .ok (st2, its) => .ok (st2, .done (some e.translation_raw) :: its)
        else if apply_fmt && e.formatted then
          match batchPass P apply_fmt st rest with
          | .error e2 => .error e2
          | .ok (st2, its) => .ok (st2, .done e.translation_formatted :: its)
        else
          match batchPass P apply_fmt st rest with
          | .error e2 => .error e2
          | .ok (st2, its) => .ok (st2, .done (some e.translation) :: its)
      | none =>
        match batchPass P apply_fmt st rest with
        | .error e2 => .error e2
        | .ok (st2, its) => .ok (st2, .todo text :: its)

/-- The uncached texts of a first-pass result, in order
(`uncached_texts`). -/
def todoTexts : List BItem → List String
  | [] => []
  | .done _ :: its => todoTexts its
  | .todo t :: its => t :: todoTexts its

/-- The scatter-and-store loop of `translate_batch`: walk the items, replacing
each `todo` with the next `(raw, formatted)` backend result and storing its
cache entry (skipping empty texts), in the zip order of the source.  Returns
the output list and the updated cache. -/
def fillItems (now : Int) (md5hex : String → String) (apply_fmt : Bool)
    (cur : String) (enabled : Bool) :
    List BItem → List (String × String) → List (String × Entry) →
      List (Option String) × List (String × Entry)
  | [], _, cache => ([], cache)
  | .done r :: its, prs, cache =>
    let rec1 := fillItems now md5hex apply_fmt cur enabled its prs cache
    (r :: rec1.1, rec1.2)
  | .todo _ :: its, [], cache =>
    let rec1 := fillItems now md5hex apply_fmt cur enabled its [] cache
    (none :: rec1.1, rec1.2)
  | .todo text :: its, (raw, fm) :: prs, cache =>
    let cache1 :=
      if enabled && !(text = "") then
        dictInsert (cacheKey md5hex text)
          { translation := fm, translation_raw := raw,
            translation_formatted := if apply_fmt then some fm else none,
            model_id := cur, formatted := apply_fmt, timestamp := now } cache
      else cache
    let rec1 := fillItems now md5hex apply_fmt cur enabled its prs cache1
    (some fm :: rec1.1, rec1.2)

/-- `Translator.translate_batch(texts, apply_formatting)`.  Empty input list
returns `[]`.  With the cache enabled the first pass answers hits and
collects misses; with it disabled every input (including empty strings) is
sent to the backend.  If there are uncached texts, they go to the backend in
one batched call; if formatting was requested each result is then passed to
the wrapped `process_text` with the options dict, which raises `TypeError` at
the first element (after the backend call, before any store); otherwise the
results are scattered back into their original positions and cached; `cache_operations` grows by the number of
uncached texts (unconditionally in the source) and the periodic save/cleanup
run when the cache is enabled.  Errors propagate to the caller (the state at
the moment of a Python raise is not modelled here; all batch claims are about
successful runs or the raise itself). -/
def translate_batch (P : Oracle) (now : Int) (st : TransState) (texts : List String)
    (apply_fmt : Bool) : Except Err (TransState × List (Option String)) :=
  if texts = [] then .ok (st, [])
  else
    match
      (if st.cache_enabled then batchPass P apply_fmt st texts
       else .ok (st, texts.map .todo)) with
    | .error e => .error e
    | .ok (st1, items) =>
      let uncached := todoTexts items
      if uncached = [] then
        .ok (st1, items.map (fun it => match it with | .done r => r | .todo _ => none))
      else
        let msr := mTranslateBatch P.gen st1.ms uncached
        let st2 := { st1 with ms := msr.1 }
        match msr.2 with
        | .error e => .error e
        | .ok raws =>
          match (if apply_fmt then mapExcept (process_text (some st2.opts)) raws else .ok raws) with
          | .error e => .error e
          | .ok newts =>
            let fr := fillItems now P.md5hex apply_fmt st2.current_model_id
              st2.cache_enabled items (raws.zip newts) st2.cache
            let st3 := { st2 with cache := fr.2, cache_ops := st2.cache_ops + uncached.length }
            let st4 :=
              if st3.cache_enabled && CACHE_SAVE_INTERVAL ≤ st3.cache_ops then
                saveCacheMem now st3
              else st3
            let st5 :=
              if st4.cache_enabled && CACHE_CLEANUP_INTERVAL ≤ st4.cache_ops then
                { st4 with cache := cleanupCache now st4.cache_limit st4.cache, cache_ops := 0 }
              else st4
            .ok (st5, fr.1)

/-! ### translator.py / model.py — change_model -/

/-- `ModelManager.get_model_path` (the unknown/not-downloaded checks are
already guaranteed by `change_model`'s own preceding checks): the stored
`local_path` or a name derived from the model id. -/
def modelPath (md : ModelMeta) (model_id : String) : String :=
  match md.local_path with
  | some p => p
  | none => "models--" ++ model_id

/-- `TranslationModel.change_model(model_path, model_id)`: the source assigns
`self.model_id = model_id` BEFORE attempting `_load_model()` and never
restores it on failure; `_load_model` loads from `self.model_id` (the path
argument is unused there).  On success the model and tokenizer are loaded; on
failure the previous ones remain in place (the partially-replaced-tokenizer
corner of a two-stage load failure is not distinguished by `loaded`), but
`model_id` stays mutated. -/
def mChangeModel (loadOk : String → Bool) (ms : ModelState) (model_id : String) :
    ModelState × Except Err Unit :=
  let ms1 : ModelState := { ms with model_id := model_id }
  if loadOk model_id then
    ({ ms1 with loaded := true }, .ok ())
  else
    (ms1, .error (.runtimeError ("Failed to change model: Failed to load translation model: " ++ model_id)))

/-- `Translator.change_model(model_id)`: check the model is known, downloaded,
and its GPU requirement is satisfied (each failure raises before any state is
touched); save the current cache; switch the backend model; update
`current_model_id`; reset and reload the cache for the new model.  Every
failure is wrapped into a `RuntimeError` surfaced to the caller. -/
def change_model (P : Oracle) (now : Int) (st : TransState) (model_id : String) :
    TransState × Except Err Bool :=
  match metaFind model_id st.model_metadata with
  | none =>
    (st, .error (.runtimeError ("Failed to change model: Model " ++ model_id ++ " not found")))
  | some md =>
    if md.downloaded = false then
      (st, .error (.runtimeError ("Failed to change model: Model " ++ model_id ++ " is not downloaded")))
    else if md.gpu_required && !st.gpu_available then
      (st, .error (.runtimeError ("Failed to change model: Model " ++ model_id ++ " requires GPU, but no GPU is available")))
    else
      let st1 := if st.cache_enabled then saveCacheMem now st else st
      let mr := mChangeModel P.loadOk st1.ms model_id
      let st2 := { st1 with ms := mr.1 }
      match mr.2 with
      | .error e => (st2, .error e)
      | .ok _ =>
        let st3 := { st2 with current_model_id := model_id }
        let st4 :=
          if st3.cache_enabled then { st3 with cache := P.diskCache model_id }
          else st3
        (st4, .ok true)

/-! ### translator.py — _load_cache and the on-disk cache file -/

/-- `MAX_CACHE_SIZE_GB`. -/
def MAX_CACHE_SIZE_GB : Nat := 1

/-- A raw entry of a parsed cache mapping: `malformed` models a value that is
not a dict or lacks one of the required `translation`/`model_id`/`timestamp`
fields (dropped individually during load); `entry` carries a structurally
valid entry. -/
inductive RawEntry where
  | malformed
  | entry (e : Entry)

/-- Parse outcome of the cache file's bytes: `json.load` raises, or yields a
non-mapping, or yields a mapping of raw entries. -/
inductive Parsed where
  | invalidJson
  | notDict
  | dict (entries : List (String × RawEntry))

/-- A cache file on disk: its byte size and its parse outcome. -/
structure DiskFile where
  sizeBytes : Nat
  parsed : Parsed

/-- The disk locations touched by `_load_cache`/`clear_cache`: the cache file
and its `.bak` sibling. -/
structure CacheDisk where
  main : Option DiskFile
  bak : Option DiskFile

/-- `Translator._load_cache` (with `clear_cache` inlined for the oversized
branch).  Returns the resulting in-memory cache and the resulting disk state:
 * cache disabled, or no file: nothing happens;
 * file over `MAX_CACHE_SIZE_GB` (the float division by `1024**3` is exact,
   so the comparison is `sizeBytes > 2^30`): `clear_cache()` — memory emptied
   and both the file and any `.bak` best-effort deleted;
 * unparseable or non-mapping contents: the handler leaves the memory cache
   empty and renames the file to `.bak` (POSIX rename replaces an existing
   `.bak`); nothing is raised to the caller (the handler swallows, and a
   failing backup is swallowed too);
 * a parsed mapping: malformed and expired entries are dropped, the rest
   become the in-memory cache. -/
def loadCache (now : Int) (enabled : Bool) (cache0 : List (String × Entry))
    (fs : CacheDisk) : List (String × Entry) × CacheDisk :=
  if enabled = false then (cache0, fs)
  else
    match fs.main with
    | none => (cache0, fs)
    | some f =>
      if MAX_CACHE_SIZE_GB * 1024 ^ 3 < f.sizeBytes then
        ([], ⟨none, none⟩)
      else
        match f.parsed with
        | .invalidJson => ([], ⟨none, some f⟩)
        | .notDict => ([], ⟨none, some f⟩)
        | .dict entries =>
          (entries.filterMap (fun kr =>
            match kr.2 with
            | .malformed => none
            | .entry e => if expiredAt now e.timestamp then none else some (kr.1, e)), fs)

/-! ### Invariants and relations used by the statements -/

/-- The shape invariant of entries the code itself writes: an entry stored or
updated by `translate`/`translate_batch` with `formatted = False` has
`translation == translation_raw` (both store sites store the same string in both
fields when no formatting was applied, and the materialise-on-hit update sets
`formatted = True`). -/
def wfEntry (e : Entry) : Prop :=
  e.formatted = false → e.translation = e.translation_raw

/-- A cache all of whose entries satisfy `wfEntry`. -/
def wfCache (c : List (String × Entry)) : Prop :=
  ∀ kv ∈ c, wfEntry kv.2

/-- Relation between the cache state `st0` at the start of a
`translate_batch` call and the state `st` reached part-way through its first
(cache) pass: everything is unchanged except that some entries may have been
materialised — updated from an unformatted entry `e` (matching the current
model) to the same entry carrying `formatted = True` and the formatted
variant `t` of its raw translation.  (With the `lru_cache`-wrapped
`process_text`, the materialisation disjunct is never satisfied — the update
site raises instead — but it is kept so the relation mirrors the source's
store-back site.) -/
structure Reach (P : Oracle) (st0 st : TransState) : Prop where
  enabled : st.cache_enabled = st0.cache_enabled
  model : st.current_model_id = st0.current_model_id
  optsEq : st.opts = st0.opts
  msEq : st.ms = st0.ms
  limitEq : st.cache_limit = st0.cache_limit
  opsEq : st.cache_ops = st0.cache_ops
  gpuEq : st.gpu_available = st0.gpu_available
  metaEq : st.model_metadata = st0.model_metadata
  cache : ∀ k, dictFind k st.cache = dictFind k st0.cache ∨
    ∃ e t, dictFind k st0.cache = some e ∧ e.model_id = st0.current_model_id ∧
      e.formatted = false ∧ process_text (some st0.opts) e.translation_raw = .ok t ∧
      dictFind k st.cache = some { e with translation_formatted := some t, formatted := true }

/-- Alignment of a first-pass item list with the `(raw, formatted)` result
pairs produced for its `todo`s by the backend call and the formatting pass:
the pairs are consumed left to right by the `todo`s, each `raw` being the
generation of the `todo`'s text and each formatted component its
`process_text` image (or `raw` itself when formatting is off). -/
inductive Aligned (P : Oracle) (o : Ops) (flag : Bool) :
    List BItem → List (String × String) → Prop where
  | nil : Aligned P o flag [] []
  | done (r : Option String) (its : List BItem) (prs : List (String × String)) :
      Aligned P o flag its prs → Aligned P o flag (.done r :: its) prs
  | todo (t raw fm : String) (its : List BItem) (prs : List (String × String)) :
      P.gen t = .ok raw →
      (if flag then process_text (some o) raw else Except.ok raw) = .ok fm →
      Aligned P o flag its prs →
      Aligned P o flag (.todo t :: its) ((raw, fm) :: prs)

/-! ### Concrete instances used by witnesses and counterexamples -/

/-- A concrete oracle: deterministic generation, a constant digest (long keys
are not exercised), loading succeeds exactly for model "mok". -/
def oracleA : Oracle :=
  { gen := fun t => .ok ("T" ++ t), md5hex := fun _ => "HASH",
    loadOk := fun m => m = "mok", diskCache := fun _ => [] }

/-- The translator's default formatting options (all four toggles on). -/
def opsAll : Ops := ⟨true, true, true, true⟩

/-- A concrete unformatted cache entry for model "m1". -/
def entryA : Entry := ⟨"X", "X", none, "m1", false, 0⟩

/-- A concrete baseline translator state: model "m1" loaded, cache enabled
and empty, default limit, all formatting toggles on. -/
def stA : TransState :=
  { ms := ⟨"m1", true, 0⟩, current_model_id := "m1", cache_enabled := true,
    cache_limit := 5000, cache := [], cache_ops := 0, opts := opsAll,
    gpu_available := false,
    model_metadata :=
      [("m1", ⟨true, false, none⟩), ("mok", ⟨true, false, none⟩),
       ("mbad", ⟨true, false, none⟩), ("mgpu", ⟨true, true, none⟩),
       ("mnd", ⟨false, false, none⟩)] }

/-- A concrete state with one unformatted cached entry for "hi". -/
def stC1 : TransState := { stA with cache := [("hi", entryA)] }

/-! ## Helper lemmas -/

theorem dictFind_dictInsert (k k' : String) (v : Entry) (c : List (String × Entry)) :
    dictFind k' (dictInsert k v c) = if k' = k then some v else dictFind k' c := by
  induction c with
  | nil =>
    simp only [dictInsert, dictFind]
    by_cases h : k' = k
    · rw [if_pos h.symm, if_pos h]
    · rw [if_neg (fun hh => h hh.symm), if_neg h]
  | cons kv rest ih =>
    obtain ⟨k0, v0⟩ := kv
    by_cases h0 : k0 = k
    · subst h0
      simp only [dictInsert, if_pos rfl, dictFind]
      by_cases h1 : k0 = k'
      · rw [if_pos h1, if_pos h1.symm]
      · rw [if_neg h1, if_neg (fun hh => h1 hh.symm), if_neg h1]
    · simp only [dictInsert, if_neg h0, dictFind]
      by_cases h1 : k0 = k'
      · have h2 : ¬ k' = k := fun hh => h0 (h1.trans hh)
        rw [if_pos h1, if_neg h2, if_pos h1]
      · rw [if_neg h1, ih, if_neg h1]

theorem saveCacheMem_model (now : Int) (st : TransState) :
    (saveCacheMem now st).current_model_id = st.current_model_id ∧
    (saveCacheMem now st).ms = st.ms ∧
    (saveCacheMem now st).cache_enabled = st.cache_enabled := by
  unfold saveCacheMem
  split
  · exact ⟨rfl, rfl, rfl⟩
  · exact ⟨rfl, rfl, rfl⟩

/-! ## C10 — whitespace-only input reaches the backend validation -/

/-- C10: a non-empty, whitespace-only text passes the empty-string
short-circuit, misses the cache (when the cache is enabled), and the
backend's validation rejects it with
`ValueError("Text cannot be empty or contain only whitespace")`, which
propagates to the caller — in particular the call does not return an empty
(or any) result. -/
theorem c10_whitespace_only_raises (P : Oracle) (now : Int) (st : TransState)
    (text : String) (apply_fmt : Bool)
    (hne : text ≠ "") (hws : pyStripStr text = "")
    (hloaded : st.ms.loaded = true)
    (hmiss : st.cache_enabled = true → dictFind (cacheKey P.md5hex text) st.cache = none) :
    (translate P now st text apply_fmt).2 =
      .error (.valueError "Text cannot be empty or contain only whitespace") := by
  have hhit : hitEntry P.md5hex st text = none := by
    unfold hitEntry
    cases hce : st.cache_enabled
    · simp
    · simp [hmiss hce]
  simp [translate, hne, hhit, mTranslate, hloaded, validate_text, hws]

/-- Witness for C10 at a concrete whitespace-only input. -/
theorem c10_whitespace_only_raises_witness :
    (translate oracleA 0 stA "   " true).2 =
      .error (.valueError "Text cannot be empty or contain only whitespace") :=
  c10_whitespace_only_raises oracleA 0 stA "   " true (by decide) (by decide) rfl
    (fun _ => rfl)

/-! ## C7 — backend failure leaves the cache unchanged -/

/-- C7: whenever `Translator.translate` fails (model not loaded, input
validation, inference error, or a formatting failure after the backend), the
in-memory cache is left exactly as it was: no new or partial entry is stored
and no existing entry is touched, and the pending-operation counter is
unchanged (stores happen only after a complete successful raw translation). -/
theorem c7_failure_preserves_cache (P : Oracle) (now : Int) (st : TransState)
    (text : String) (apply_fmt : Bool) (st' : TransState) (e : Err)
    (h : translate P now st text apply_fmt = (st', .error e)) :
    st'.cache = st.cache ∧ st'.cache_ops = st.cache_ops := by
  by_cases htext : text = ""
  · simp [translate, htext] at h
  · rcases hhit : hitEntry P.md5hex st text with _ | e0
    · rcases hms : (mTranslate P.gen st.ms text).2 with er | raw
      · simp only [translate, if_neg htext, hhit, hms] at h
        rw [Prod.mk.injEq] at h
        rw [← h.1]
        exact ⟨rfl, rfl⟩
      · rcases hfm : (if apply_fmt then process_text (some st.opts) raw else .ok raw) with er2 | fm
        · simp only [translate, if_neg htext, hhit, hms] at h
          rw [hfm] at h
          rw [Prod.mk.injEq] at h
          rw [← h.1]
          exact ⟨rfl, rfl⟩
        · simp only [translate, if_neg htext, hhit, hms] at h
          rw [hfm] at h
          by_cases hce : st.cache_enabled = true
          · simp only [hce, if_pos] at h
            exact absurd (congrArg Prod.snd h) (by simp)
          · simp only [hce] at h
            exact absurd (congrArg Prod.snd h) (by simp)
    · by_cases hbr1 : (apply_fmt && !e0.formatted) = true
      · rcases hpt : process_text (some st.opts) e0.translation with er2 | t
        · simp only [translate, if_neg htext, hhit, hbr1, if_pos, hpt] at h
          rw [Prod.mk.injEq] at h
          rw [← h.1]
          exact ⟨rfl, rfl⟩
        · simp only [translate, if_neg htext, hhit, hbr1, if_pos, hpt] at h
          exact absurd (congrArg Prod.snd h) (by simp)
      · by_cases hbr2 : (!apply_fmt && e0.formatted) = true
        · simp only [translate, if_neg htext, hhit, hbr1, hbr2] at h
          exact absurd (congrArg Prod.snd h) (by simp)
        · by_cases hbr3 : (apply_fmt && e0.formatted) = true
          · simp only [translate, if_neg htext, hhit, hbr1, hbr2, hbr3] at h
            exact absurd (congrArg Prod.snd h) (by simp)
          · simp only [translate, if_neg htext, hhit, hbr1, hbr2, hbr3] at h
            exact absurd (congrArg Prod.snd h) (by simp)

/-- Witness for C7: translating with an unloaded backend fails and leaves the
cache untouched. -/
theorem c7_failure_preserves_cache_witness :
    ((translate oracleA 0 { stA with ms := ⟨"m1", false, 0⟩ } "x" true).1.cache =
        ({ stA with ms := ⟨"m1", false, 0⟩ } : TransState).cache) ∧
    ((translate oracleA 0 { stA with ms := ⟨"m1", false, 0⟩ } "x" true).1.cache_ops =
        ({ stA with ms := ⟨"m1", false, 0⟩ } : TransState).cache_ops) :=
  c7_failure_preserves_cache oracleA 0 { stA with ms := ⟨"m1", false, 0⟩ } "x" true
    (translate oracleA 0 { stA with ms := ⟨"m1", false, 0⟩ } "x" true).1
    (.runtimeError "Translation model is not loaded") rfl

/-! ## C5 — corrupt cache file recovery -/

/-- C5 (amended): for a cache file within the `MAX_CACHE_SIZE_GB` size
ceiling whose contents are not valid JSON or not a JSON mapping, loading
yields an empty in-memory cache, the file is renamed to `.bak` with its
contents intact (replacing any previous `.bak`), and nothing is raised to the
caller (`loadCache` is total and returns this value). -/
theorem c5_corrupt_file_backed_up (now : Int) (cache0 : List (String × Entry))
    (f : DiskFile) (bak0 : Option DiskFile)
    (hsize : f.sizeBytes ≤ MAX_CACHE_SIZE_GB * 1024 ^ 3)
    (hbad : f.parsed = .invalidJson ∨ f.parsed = .notDict) :
    loadCache now true cache0 ⟨some f, bak0⟩ = ([], ⟨none, some f⟩) := by
  have hsize' : f.sizeBytes ≤ MAX_CACHE_SIZE_GB * 1073741824 := by simpa using hsize
  rcases hbad with h | h <;> simp [loadCache, h, hsize']

/-- Witness for C5 (amended) at a concrete small invalid-JSON file. -/
theorem c5_corrupt_file_backed_up_witness :
    loadCache 0 true [] ⟨some ⟨10, .invalidJson⟩, none⟩ =
      ([], ⟨none, some ⟨10, .invalidJson⟩⟩) :=
  c5_corrupt_file_backed_up 0 [] ⟨10, .invalidJson⟩ none (by decide) (Or.inl rfl)

/-- Counterexample to C5 as stated: a cache file whose contents are not valid
JSON but whose size exceeds `MAX_CACHE_SIZE_GB` (here 2 GiB) is not renamed
to `.bak` — `clear_cache` deletes it (and any backup) outright, so its bytes
are not preserved. -/
theorem c5_oversized_invalid_file_deleted_cex :
    (loadCache 0 true [] ⟨some ⟨2147483648, .invalidJson⟩, none⟩).2.bak = none ∧
    (loadCache 0 true [] ⟨some ⟨2147483648, .invalidJson⟩, none⟩).2.main = none ∧
    (loadCache 0 true [] ⟨some ⟨2147483648, .invalidJson⟩, none⟩).1 = [] :=
  ⟨rfl, rfl, rfl⟩

/-! ## C6 — change_model failure handling -/

/-- C6 (amended): a `change_model` failure at one of the pre-checks (unknown
model, not downloaded, GPU required but unavailable) raises before any state
is touched, leaving the translator exactly unchanged.  A failure while
loading the new backend also surfaces an error and leaves
`Translator.current_model_id` and the loaded backend in place, but
`TranslationModel.model_id` has already been reassigned to the requested id
and is not rolled back (and the pending cache save has run). -/
theorem c6_change_model_failure (P : Oracle) (now : Int) (st : TransState)
    (mid : String) :
    (metaFind mid st.model_metadata = none →
      change_model P now st mid =
        (st, .error (.runtimeError ("Failed to change model: Model " ++ mid ++ " not found")))) ∧
    (∀ md, metaFind mid st.model_metadata = some md → md.downloaded = false →
      change_model P now st mid =
        (st, .error (.runtimeError ("Failed to change model: Model " ++ mid ++ " is not downloaded")))) ∧
    (∀ md, metaFind mid st.model_metadata = some md → md.downloaded = true →
      (md.gpu_required && !st.gpu_available) = true →
      change_model P now st mid =
        (st, .error (.runtimeError ("Failed to change model: Model " ++ mid ++ " requires GPU, but no GPU is available")))) ∧
    (∀ md, metaFind mid st.model_metadata = some md → md.downloaded = true →
      (md.gpu_required && !st.gpu_available) = false → P.loadOk mid = false →
      (change_model P now st mid).1.current_model_id = st.current_model_id ∧
      (change_model P now st mid).1.ms.loaded = st.ms.loaded ∧
      (change_model P now st mid).1.ms.model_id = mid ∧
      ∃ e, (change_model P now st mid).2 = .error e) := by
  refine ⟨fun hnone => ?_, fun md hmd hdl => ?_, fun md hmd hdl hgpu => ?_,
    fun md hmd hdl hgpu hload => ?_⟩
  · simp [change_model, hnone]
  · simp [change_model, hmd, hdl]
  · simp [change_model, hmd, hdl, hgpu]
  · cases hce : st.cache_enabled <;>
      simp [change_model, hmd, hdl, hgpu, hload, mChangeModel, saveCacheMem, hce]

/-- Witness for C6 (amended): concrete instances of all four failure modes
("nf" unknown, "mnd" not downloaded, "mgpu" needs a GPU, "mbad" fails to
load). -/
theorem c6_change_model_failure_witness :
    change_model oracleA 0 stA "nf" =
      (stA, .error (.runtimeError "Failed to change model: Model nf not found")) ∧
    change_model oracleA 0 stA "mnd" =
      (stA, .error (.runtimeError "Failed to change model: Model mnd is not downloaded")) ∧
    change_model oracleA 0 stA "mgpu" =
      (stA, .error (.runtimeError "Failed to change model: Model mgpu requires GPU, but no GPU is available")) ∧
    ((change_model oracleA 0 stA "mbad").1.current_model_id = stA.current_model_id ∧
      (change_model oracleA 0 stA "mbad").1.ms.loaded = stA.ms.loaded ∧
      (change_model oracleA 0 stA "mbad").1.ms.model_id = "mbad" ∧
      ∃ e, (change_model oracleA 0 stA "mbad").2 = .error e) :=
  ⟨(c6_change_model_failure oracleA 0 stA "nf").1 rfl,
   (c6_change_model_failure oracleA 0 stA "mnd").2.1 ⟨false, false, none⟩ rfl rfl,
   (c6_change_model_failure oracleA 0 stA "mgpu").2.2.1 ⟨true, true, none⟩ rfl rfl rfl,
   (c6_change_model_failure oracleA 0 stA "mbad").2.2.2 ⟨true, false, none⟩ rfl rfl rfl
     (by decide)⟩

/-- Counterexample to C6 as stated: switching to the downloaded model "mbad"
whose backend load fails surfaces an error, yet the backend's
`TranslationModel.model_id` is left set to "mbad" (it was reassigned before
the load and is not rolled back), while the previous id was "m1" — the
translator's state did not roll back to "no active change". -/
theorem c6_model_id_not_rolled_back_cex :
    (change_model oracleA 0 stA "mbad").1.ms.model_id = "mbad" ∧
    stA.ms.model_id = "m1" ∧
    (change_model oracleA 0 stA "mbad").2 =
      .error (.runtimeError "Failed to change model: Failed to load translation model: mbad") :=
  ⟨rfl, rfl, rfl⟩

/-! ## C4 and C9 counterexamples -/

/-- A state at its cache limit (limit 1, one fresh entry), with no pending
operations. -/
def stLimit1 : TransState := { stA with cache_limit := 1, cache := [("a", entryA)] }

/-- Counterexample to C4 as stated: with the cache at its configured limit
(1 entry), a single `translate` of a new text inserts a second entry and
returns with the in-memory store at 2 > 1 entries — the bound is only
enforced during the periodic `_save_cache`/`_cleanup_cache` maintenance
(every `CACHE_SAVE_INTERVAL` = 20 operations), not on every insert. -/
theorem c4_store_exceeds_limit_cex :
    (translate oracleA 5 stLimit1 "b" false).1.cache.length = 2 ∧
    stLimit1.cache_limit = 1 ∧
    (translate oracleA 5 stLimit1 "b" false).2 = .ok (some "Tb") :=
  ⟨rfl, rfl, rfl⟩

/-- A baseline state with the cache disabled. -/
def stDisabled : TransState := { stA with cache_enabled := false }

/-- Counterexample to C9 as stated: with the cache disabled,
`translate_batch` does not map an empty-string element to an empty output —
it forwards it to the backend, whose batch validation raises. -/
theorem c9_disabled_empty_raises_cex :
    translate_batch oracleA 0 stDisabled [""] true =
      .error (.valueError "Text at index 0 cannot be empty or contain only whitespace") :=
  rfl

/-! ## C4 — eviction bound (amended) -/

/-- Timestamp ordering on cache items. -/
def tsLe (a b : String × Entry) : Prop := a.2.timestamp ≤ b.2.timestamp

theorem perm_insertByTs (kv : String × Entry) (l : List (String × Entry)) :
    List.Perm (insertByTs kv l) (kv :: l) := by
  induction l with
  | nil => simp [insertByTs]
  | cons kv' rest ih =>
    simp only [insertByTs]
    split
    · exact List.Perm.refl _
    · exact ((ih.cons kv').trans (List.Perm.swap kv kv' rest))

theorem perm_sortByTs (l : List (String × Entry)) : List.Perm (sortByTs l) l := by
  induction l with
  | nil => simp [sortByTs]
  | cons kv rest ih => exact (perm_insertByTs kv (sortByTs rest)).trans (ih.cons kv)

theorem pairwise_insertByTs (kv : String × Entry) (l : List (String × Entry))
    (h : l.Pairwise tsLe) : (insertByTs kv l).Pairwise tsLe := by
  induction l with
  | nil => simp [insertByTs, List.pairwise_cons, tsLe]
  | cons kv' rest ih =>
    simp only [insertByTs]
    split
    · rename_i hle
      rw [List.pairwise_cons]
      refine ⟨?_, h⟩
      intro a ha
      rcases List.mem_cons.mp ha with rfl | ha'
      · exact hle
      · exact le_trans hle ((List.pairwise_cons.mp h).1 a ha')
    · rename_i hgt
      rw [List.pairwise_cons]
      obtain ⟨hhd, htl⟩ := List.pairwise_cons.mp h
      refine ⟨?_, ih htl⟩
      intro a ha
      have ha' := (perm_insertByTs kv rest).mem_iff.mp ha
      rcases List.mem_cons.mp ha' with rfl | ha''
      · exact le_of_not_le hgt
      · exact hhd a ha''

theorem sorted_sortByTs (l : List (String × Entry)) : (sortByTs l).Pairwise tsLe := by
  induction l with
  | nil => simp [sortByTs]
  | cons kv rest ih => exact pairwise_insertByTs kv (sortByTs rest) ih

theorem eq_of_mem_of_nodup_keys {l : List (String × Entry)}
    (hnd : (l.map Prod.fst).Nodup) {a b : String × Entry}
    (ha : a ∈ l) (hb : b ∈ l) (hk : a.1 = b.1) : a = b := by
  induction l with
  | nil => cases ha
  | cons x rest ih =>
    rw [List.map_cons, List.nodup_cons] at hnd
    rcases List.mem_cons.mp ha with rfl | ha' <;> rcases List.mem_cons.mp hb with rfl | hb'
    · rfl
    · exact absurd (hk ▸ List.mem_map_of_mem Prod.fst hb') hnd.1
    · exact absurd (hk ▸ List.mem_map_of_mem Prod.fst ha') hnd.1
    · exact ih hnd.2 ha' hb'

/-- C4 (amended): the entry-count bound is enforced by `_cleanup_cache` (run
from `_save_cache` when the store exceeds `cache_limit`, every
`CACHE_SAVE_INTERVAL` operations): its result never exceeds `cache_limit`
entries, and every entry it removes is either expired or no newer than every
entry it keeps (expired entries first, then oldest-timestamp-first).  Between
maintenance passes the in-memory store may transiently exceed the limit. -/
theorem c4_cleanup_enforces_bound (now : Int) (limit : Nat)
    (cache : List (String × Entry)) (hnd : (cache.map Prod.fst).Nodup) :
    (cleanupCache now limit cache).length ≤ limit ∧
    ∀ kv ∈ cache, kv ∉ cleanupCache now limit cache →
      expiredAt now kv.2.timestamp = true ∨
      ∀ kv' ∈ cleanupCache now limit cache, kv.2.timestamp ≤ kv'.2.timestamp := by
  unfold cleanupCache evictOldest
  set alive := cache.filter (fun kv => !expiredAt now kv.2.timestamp) with halive
  by_cases hlen : limit < alive.length
  · rw [if_pos hlen]
    set n := alive.length - limit with hn
    set sorted := sortByTs alive with hsorted
    set toRemove := (sorted.take n).map Prod.fst with htr
    set p : String × Entry → Bool := fun kv => !toRemove.contains kv.1 with hp
    have hperm : List.Perm sorted alive := perm_sortByTs alive
    have hpw : sorted.Pairwise tsLe := sorted_sortByTs alive
    have hndal : (alive.map Prod.fst).Nodup :=
      List.Nodup.sublist (List.Sublist.map Prod.fst (List.filter_sublist cache)) hnd
    have hndsorted : (sorted.map Prod.fst).Nodup :=
      ((hperm.map Prod.fst).nodup_iff).mpr hndal
    have hfiltake : ∀ x ∈ sorted.take n, p x = false := by
      intro x hx
      have : x.1 ∈ toRemove := htr ▸ List.mem_map_of_mem Prod.fst hx
      simp only [hp, Bool.not_eq_false']
      exact List.elem_eq_true_of_mem this
    constructor
    · have h1 : (alive.filter p).length = (sorted.filter p).length :=
        ((hperm.filter p).length_eq).symm
      have h2 : sorted.filter p = (sorted.take n).filter p ++ (sorted.drop n).filter p := by
        rw [← List.filter_append, List.take_append_drop]
      have h3 : (sorted.take n).filter p = [] := by
        rw [List.filter_eq_nil_iff]
        intro x hx
        simp [hfiltake x hx]
      have h4 : (sorted.filter p).length ≤ (sorted.drop n).length := by
        rw [h2, h3, List.nil_append]
        exact List.length_filter_le _ _
      have h5 : (sorted.drop n).length = limit := by
        rw [List.length_drop, hperm.length_eq, hn]
        omega
      rw [h1]
      rw [h5] at h4
      exact h4
    · intro kv hkv hnotin
      by_cases hexp : expiredAt now kv.2.timestamp = true
      · exact Or.inl hexp
      · right
        have hkvalive : kv ∈ alive := by
          rw [halive, List.mem_filter]
          exact ⟨hkv, by simp [hexp]⟩
        have hpk : p kv = false := by
          by_contra hpk
          exact hnotin (List.mem_filter.mpr ⟨hkvalive, Bool.of_not_eq_false hpk⟩)
        have hcont : kv.1 ∈ toRemove := by
          simp only [hp, Bool.not_eq_false'] at hpk
          simpa using hpk
        obtain ⟨kv2, hkv2take, hkey⟩ := List.mem_map.mp (htr ▸ hcont)
        have hkv2sorted : kv2 ∈ sorted := List.mem_of_mem_take hkv2take
        have hkveq : kv2 = kv :=
          eq_of_mem_of_nodup_keys hndsorted hkv2sorted (hperm.mem_iff.mpr hkvalive) hkey
        have hkvtake : kv ∈ sorted.take n := hkveq ▸ hkv2take
        intro kv' hkv'
        obtain ⟨hkv'alive, hpkv'⟩ := List.mem_filter.mp hkv'
        have hkv'sorted : kv' ∈ sorted := hperm.mem_iff.mpr hkv'alive
        have hkv'drop : kv' ∈ sorted.drop n := by
          have := (List.take_append_drop n sorted) ▸ hkv'sorted
          rcases List.mem_append.mp this with htk | hdp
          · exact absurd hpkv' (by simp [hfiltake kv' htk])
          · exact hdp
        have hsplit : List.Pairwise tsLe (sorted.take n ++ sorted.drop n) := by
          rw [List.take_append_drop]
          exact hpw
        exact (List.pairwise_append.mp hsplit).2.2 kv hkvtake kv' hkv'drop
  · rw [if_neg hlen]
    constructor
    · exact le_of_not_lt (fun h => hlen (by omega))
    · intro kv hkv hnotin
      left
      by_contra hexp
      exact hnotin (by
        rw [halive, List.mem_filter]
        exact ⟨hkv, by simp [hexp]⟩)

/-- Witness for C4 (amended): cleaning up a three-entry store (one expired)
with limit 1 keeps only the newest entry. -/
theorem c4_cleanup_enforces_bound_witness :
    (cleanupCache 10000000 1
        [("a", entryA), ("b", ⟨"Y", "Y", none, "m1", false, 5⟩),
         ("c", ⟨"Z", "Z", none, "m1", false, 9999999⟩)]).length ≤ 1 ∧
    ∀ kv ∈ [("a", entryA), ("b", (⟨"Y", "Y", none, "m1", false, 5⟩ : Entry)),
         ("c", (⟨"Z", "Z", none, "m1", false, 9999999⟩ : Entry))],
      kv ∉ cleanupCache 10000000 1
        [("a", entryA), ("b", ⟨"Y", "Y", none, "m1", false, 5⟩),
         ("c", ⟨"Z", "Z", none, "m1", false, 9999999⟩)] →
      expiredAt 10000000 kv.2.timestamp = true ∨
      ∀ kv' ∈ cleanupCache 10000000 1
        [("a", entryA), ("b", ⟨"Y", "Y", none, "m1", false, 5⟩),
         ("c", ⟨"Z", "Z", none, "m1", false, 9999999⟩)],
        kv.2.timestamp ≤ kv'.2.timestamp :=
  c4_cleanup_enforces_bound 10000000 1
    [("a", entryA), ("b", ⟨"Y", "Y", none, "m1", false, 5⟩),
     ("c", ⟨"Z", "Z", none, "m1", false, 9999999⟩)] (by decide)

/-! ## C2 — a second identical call is served from the cache -/

theorem hitEntry_some (md5hex : String → String) (st : TransState) (text : String)
    (e : Entry) (h : hitEntry md5hex st text = some e) :
    st.cache_enabled = true ∧ dictFind (cacheKey md5hex text) st.cache = some e ∧
    e.model_id = st.current_model_id := by
  unfold hitEntry at h
  by_cases hce : st.cache_enabled = true
  · rw [if_pos hce] at h
    rcases hdf : dictFind (cacheKey md5hex text) st.cache with _ | e0
    · simp only [hdf] at h
      exact Option.noConfusion h
    · simp only [hdf] at h
      by_cases hm : e0.model_id = st.current_model_id
      · rw [if_pos hm] at h
        injection h with he
        subst he
        exact ⟨hce, hdf ▸ rfl, hm⟩
      · rw [if_neg hm] at h
        exact Option.noConfusion h
  · rw [if_neg hce] at h
    exact Option.noConfusion h

/-- C2 (amended): with the cache enabled, WHENEVER a first `translate` of a
non-empty text returns successfully — which with `apply_formatting=True`
requires the text to already be cached as formatted, since the miss path's
formatting call always raises `TypeError`; with `apply_formatting=False` it
holds for every successful backend call — a second call for the same text
under the same model and the same formatting flag returns the same result and
leaves the translator state exactly as it was: the backend
(`TranslationModel.translate`, counted by `ms.calls`) is not invoked again.
When the first call raises instead (see the counterexample), nothing was
cached and a second call invokes the backend again.  The save-interval
hypothesis states that the first call is not the one that triggers the
periodic cache maintenance. -/
theorem c2_second_call_cached (P : Oracle) (now now2 : Int) (st st1 : TransState)
    (text : String) (apply_fmt : Bool) (r : Option String)
    (hen : st.cache_enabled = true) (hne : text ≠ "")
    (hops : st.cache_ops + 1 < CACHE_SAVE_INTERVAL)
    (h1 : translate P now st text apply_fmt = (st1, .ok r)) :
    translate P now2 st1 text apply_fmt = (st1, .ok r) := by
  have hsave : ¬ CACHE_SAVE_INTERVAL ≤ st.cache_ops + 1 := Nat.not_le.mpr hops
  have hclean : ¬ CACHE_CLEANUP_INTERVAL ≤ st.cache_ops + 1 :=
    Nat.not_le.mpr (lt_trans hops (by norm_num [CACHE_SAVE_INTERVAL, CACHE_CLEANUP_INTERVAL]))
  rcases hhit : hitEntry P.md5hex st text with _ | e0
  · -- cache miss on the first call: the result is stored, the second call hits it
    rcases hms : (mTranslate P.gen st.ms text).2 with er | raw
    · simp [translate, hne, hhit, hms] at h1
    · rcases hfm : (if apply_fmt then process_text (some st.opts) raw else Except.ok raw) with er2 | fm
      · simp [translate, hne, hhit, hms, hfm] at h1
      · simp only [translate, if_neg hne, hhit, hms, hfm, hen, if_true, if_pos,
          Prod.mk.injEq, Except.ok.injEq] at h1
        rw [if_neg hsave, if_neg hclean] at h1
        obtain ⟨hst, hr⟩ := h1
        subst hst
        subst hr
        cases apply_fmt
        · simp [translate, hne, hitEntry, hen, dictFind_dictInsert]
        · simp [translate, hne, hitEntry, hen, dictFind_dictInsert]
  · -- cache hit on the first call
    obtain ⟨_, hdf, hmodel⟩ := hitEntry_some P.md5hex st text e0 hhit
    by_cases hbr1 : (apply_fmt && !e0.formatted) = true
    · rcases hpt : process_text (some st.opts) e0.translation with er | t
      · simp [translate, hne, hhit, hbr1, hpt] at h1
      · simp only [translate, if_neg hne, hhit, hbr1, if_pos, hpt,
          Prod.mk.injEq, Except.ok.injEq] at h1
        obtain ⟨hst, hr⟩ := h1
        subst hst
        subst hr
        have hfmt : apply_fmt = true := by
          cases apply_fmt
          · simp at hbr1
          · rfl
        subst hfmt
        simp [translate, hne, hitEntry, hen, dictFind_dictInsert, hmodel]
    · by_cases hbr2 : (!apply_fmt && e0.formatted) = true
      · have h2 : translate P now st text apply_fmt = (st, .ok (some e0.translation_raw)) := by
          simp [translate, hne, hhit, hbr1, hbr2]
        rw [h2, Prod.mk.injEq] at h1
        obtain ⟨hst, hr⟩ := h1
        subst hst
        rw [← hr]
        simp [translate, hne, hhit, hbr1, hbr2]
      · by_cases hbr3 : (apply_fmt && e0.formatted) = true
        · have h2 : translate P now st text apply_fmt = (st, .ok e0.translation_formatted) := by
            simp [translate, hne, hhit, hbr1, hbr2, hbr3]
          rw [h2, Prod.mk.injEq] at h1
          obtain ⟨hst, hr⟩ := h1
          subst hst
          rw [← hr]
          simp [translate, hne, hhit, hbr1, hbr2, hbr3]
        · have h2 : translate P now st text apply_fmt = (st, .ok (some e0.translation)) := by
            simp [translate, hne, hhit, hbr1, hbr2, hbr3]
          rw [h2, Prod.mk.injEq] at h1
          obtain ⟨hst, hr⟩ := h1
          subst hst
          rw [← hr]
          simp [translate, hne, hhit, hbr1, hbr2, hbr3]

/-- Witness for C2 (amended): two identical raw (`apply_formatting=False`)
calls on a fresh state; the second returns the same result from the same
unchanged state. -/
theorem c2_second_call_cached_witness :
    stA.cache_enabled = true ∧ ("hello" : String) ≠ "" ∧
    stA.cache_ops + 1 < CACHE_SAVE_INTERVAL ∧
    translate oracleA 6 (translate oracleA 5 stA "hello" false).1 "hello" false =
      ((translate oracleA 5 stA "hello" false).1, .ok (some "Thello")) :=
  ⟨rfl, by decide, by decide,
   c2_second_call_cached oracleA 5 6 stA (translate oracleA 5 stA "hello" false).1
     "hello" false (some "Thello") rfl (by decide) (by decide) rfl⟩

/-- Counterexample to C2 as stated: with `apply_formatting=True` (the
translator default) and an uncached text, the FIRST call already raises —
`TypeError` from the `lru_cache`-wrapped `process_text` — after having
invoked the backend (`ms.calls` goes from 0 to 1) and before caching
anything; a second identical call therefore invokes the backend AGAIN
(`ms.calls` reaches 2) instead of being served from the cache. -/
theorem c2_fmt_first_call_raises_cex :
    (translate oracleA 5 stA "hello" true).2 =
      .error (.typeError "unhashable type: 'dict'") ∧
    (translate oracleA 5 stA "hello" true).1.ms.calls = 1 ∧
    (translate oracleA 6 (translate oracleA 5 stA "hello" true).1 "hello" true).1.ms.calls
      = 2 :=
  ⟨rfl, rfl, rfl⟩

/-! ## C3 — raw/formatted materialisation -/

/-- C3 (amended): with the cache enabled, after a raw
(`apply_formatting = False`) translation of an uncached text returned `rawR`
and stored the unformatted entry, a subsequent formatted call does NOT return
a formatted variant: the cache hit reaches the `lru_cache`-wrapped
`process_text` with the options dict, which raises
`TypeError: unhashable type: 'dict'` — the backend is not invoked (the state,
including `ms.calls`, is exactly unchanged) and nothing is computed or stored
back into the entry.  A further raw call still returns the original `rawR`,
again without the backend and without changing the state. -/
theorem c3_raw_then_formatted_raises (P : Oracle) (now now2 now3 : Int) (st st1 : TransState)
    (text rawR : String)
    (hen : st.cache_enabled = true) (hne : text ≠ "")
    (hmiss : dictFind (cacheKey P.md5hex text) st.cache = none)
    (hops : st.cache_ops + 1 < CACHE_SAVE_INTERVAL)
    (h1 : translate P now st text false = (st1, .ok (some rawR))) :
    dictFind (cacheKey P.md5hex text) st1.cache =
      some ⟨rawR, rawR, none, st.current_model_id, false, now⟩ ∧
    translate P now2 st1 text true =
      (st1, .error (.typeError "unhashable type: 'dict'")) ∧
    translate P now3 st1 text false = (st1, .ok (some rawR)) := by
  have hsave : ¬ CACHE_SAVE_INTERVAL ≤ st.cache_ops + 1 := Nat.not_le.mpr hops
  have hclean : ¬ CACHE_CLEANUP_INTERVAL ≤ st.cache_ops + 1 :=
    Nat.not_le.mpr (lt_trans hops (by norm_num [CACHE_SAVE_INTERVAL, CACHE_CLEANUP_INTERVAL]))
  have hhit : hitEntry P.md5hex st text = none := by
    unfold hitEntry
    by_cases hce : st.cache_enabled = true
    · rw [if_pos hce]
      simp only [hmiss]
    · rw [if_neg hce]
  rcases hms : (mTranslate P.gen st.ms text).2 with er | raw
  · simp [translate, hne, hhit, hms] at h1
  · simp only [translate, if_neg hne, hhit, hms, hen, if_pos, Prod.mk.injEq,
      Except.ok.injEq, Option.some.injEq, Bool.false_eq_true, if_false] at h1
    rw [if_neg hsave, if_neg hclean] at h1
    obtain ⟨hst, hraw⟩ := h1
    subst hraw
    subst hst
    refine ⟨?_, ?_, ?_⟩ <;>
      simp [translate, hne, hitEntry, hen, dictFind_dictInsert, process_text]

/-- Witness for C3 (amended) at a concrete uncached text: the raw call stores
the unformatted entry, the formatted call raises `TypeError` with the state
unchanged, and a further raw call still returns the raw translation. -/
theorem c3_raw_then_formatted_raises_witness :
    dictFind (cacheKey oracleA.md5hex "hello")
        (translate oracleA 5 stA "hello" false).1.cache =
      some ⟨"Thello", "Thello", none, stA.current_model_id, false, 5⟩ ∧
    translate oracleA 6 (translate oracleA 5 stA "hello" false).1 "hello" true =
      ((translate oracleA 5 stA "hello" false).1,
        .error (.typeError "unhashable type: 'dict'")) ∧
    translate oracleA 7 (translate oracleA 5 stA "hello" false).1 "hello" false =
      ((translate oracleA 5 stA "hello" false).1, .ok (some "Thello")) :=
  c3_raw_then_formatted_raises oracleA 5 6 7 stA
    (translate oracleA 5 stA "hello" false).1 "hello" "Thello" rfl (by decide) rfl
    (by decide) rfl

/-- Counterexample to C3 as stated: with "hi" cached as an unformatted entry,
the formatted call does not return the formatted variant of the stored raw
translation and stores nothing back — the `lru_cache` wrapper of
`process_text` raises `TypeError` on the options dict before any formatting,
leaving the state untouched. -/
theorem c3_materialize_typeerror_cex :
    translate oracleA 0 stC1 "hi" true =
      (stC1, .error (.typeError "unhashable type: 'dict'")) :=
  rfl

/-! ## C8 — formatting idempotence (smart-quote and whitespace lemmas) -/

theorem dq_not_mem_sqDouble (q : Bool) (l : List Char) : '"' ∉ sqDouble q l := by
  induction l generalizing q with
  | nil => simp [sqDouble]
  | cons c cs ih =>
    by_cases hc : c = '"'
    · subst hc
      simp only [sqDouble, if_pos rfl]
      intro hmem
      rcases List.mem_cons.mp hmem with h | h
      · cases q <;> simp_all
      · exact ih (!q) h
    · simp only [sqDouble, if_neg hc]
      intro hmem
      rcases List.mem_cons.mp hmem with h | h
      · exact hc h.symm
      · exact ih q h

theorem sqDouble_eq_self (q : Bool) (l : List Char) (h : '"' ∉ l) : sqDouble q l = l := by
  induction l generalizing q with
  | nil => simp [sqDouble]
  | cons c cs ih =>
    have hc : ¬ c = '"' := fun hh => h (hh ▸ List.mem_cons_self c cs)
    simp only [sqDouble, if_neg hc]
    rw [ih q (fun hh => h (List.mem_cons_of_mem c hh))]

theorem mem_sqDouble {c : Char} (q : Bool) (l : List Char) (h : c ∈ sqDouble q l) :
    c = '«' ∨ c = '»' ∨ c ∈ l := by
  induction l generalizing q with
  | nil => simp [sqDouble] at h
  | cons x cs ih =>
    by_cases hx : x = '"'
    · subst hx
      simp only [sqDouble, if_pos rfl] at h
      rcases List.mem_cons.mp h with h1 | h1
      · cases q
        · exact Or.inl h1
        · exact Or.inr (Or.inl h1)
      · rcases ih (!q) h1 with h2 | h2 | h2
        · exact Or.inl h2
        · exact Or.inr (Or.inl h2)
        · exact Or.inr (Or.inr (List.mem_cons_of_mem _ h2))
    · simp only [sqDouble, if_neg hx] at h
      rcases List.mem_cons.mp h with h1 | h1
      · exact Or.inr (Or.inr (h1 ▸ List.mem_cons_self x cs))
      · rcases ih q h1 with h2 | h2 | h2
        · exact Or.inl h2
        · exact Or.inr (Or.inl h2)
        · exact Or.inr (Or.inr (List.mem_cons_of_mem _ h2))

theorem sqDouble_length (q : Bool) (l : List Char) : (sqDouble q l).length = l.length := by
  induction l generalizing q with
  | nil => simp [sqDouble]
  | cons c cs ih =>
    by_cases hc : c = '"' <;> simp [sqDouble, hc, ih]

theorem apos_not_mem_sqSingle_false (l : List Char) : apos ∉ sqSingle false l := by
  induction l with
  | nil => simp [sqSingle]
  | cons c cs ih =>
    by_cases hc : c = apos
    · simpa [sqSingle, hc] using ih
    · simp only [sqSingle, if_neg hc]
      intro hmem
      rcases List.mem_cons.mp hmem with h | h
      · exact hc h.symm
      · exact ih h

theorem mem_sqSingle_false {c : Char} (l : List Char) (h : c ∈ sqSingle false l) :
    c ∈ l := by
  induction l with
  | nil => simp [sqSingle] at h
  | cons x cs ih =>
    by_cases hx : x = apos
    · rw [sqSingle, if_pos hx] at h
      exact List.mem_cons_of_mem x (ih h)
    · rw [sqSingle, if_neg hx] at h
      rcases List.mem_cons.mp h with h1 | h1
      · exact h1 ▸ List.mem_cons_self x cs
      · exact List.mem_cons_of_mem x (ih h1)

theorem sqSingle_false_eq_self (l : List Char) (h : apos ∉ l) : sqSingle false l = l := by
  induction l with
  | nil => simp [sqSingle]
  | cons c cs ih =>
    have hc : ¬ c = apos := fun hh => h (hh ▸ List.mem_cons_self c cs)
    rw [sqSingle, if_neg hc, ih (fun hh => h (List.mem_cons_of_mem c hh))]

theorem sqSingle_false_length_le (l : List Char) : (sqSingle false l).length ≤ l.length := by
  induction l with
  | nil => simp [sqSingle]
  | cons c cs ih =>
    by_cases hc : c = apos
    · rw [sqSingle, if_pos hc]
      exact le_trans ih (Nat.le_succ _)
    · rw [sqSingle, if_neg hc]
      simpa using ih

/-- Absence of both straight-quote characters in a character list (the state
after a smart-quote pass). -/
def noQuotes (l : List Char) : Prop := '"' ∉ l ∧ apos ∉ l

theorem noQuotes_sq (l : List Char) : noQuotes (sqSingle false (sqDouble false l)) := by
  constructor
  · intro h
    exact dq_not_mem_sqDouble false l (mem_sqSingle_false _ h)
  · exact apos_not_mem_sqSingle_false _

theorem sq_eq_self (l : List Char) (h : noQuotes l) :
    sqSingle false (sqDouble false l) = l := by
  rw [sqDouble_eq_self false l h.1, sqSingle_false_eq_self l h.2]

/-! Whitespace lemmas for `collapseWs` and `pyStrip`. -/

/-- No two adjacent whitespace characters. -/
def noAdjWs (l : List Char) : Prop :=
  List.Chain' (fun a b => ¬(pyIsSpace a = true ∧ pyIsSpace b = true)) l

/-- Every whitespace character is a plain space. -/
def wsOnlySpace (l : List Char) : Prop := ∀ c ∈ l, pyIsSpace c = true → c = ' '

theorem mem_collapseWs {c : Char} : ∀ l : List Char, c ∈ collapseWs l → c = ' ' ∨ c ∈ l := by
  intro l
  induction l with
  | nil => simp [collapseWs]
  | cons x cs ih =>
    cases cs with
    | nil =>
      by_cases hx : pyIsSpace x = true <;> simp_all [collapseWs]
    | cons d rest =>
      by_cases hx : pyIsSpace x = true
      · by_cases hd : pyIsSpace d = true
        · rw [collapseWs, if_pos hx, if_pos hd]
          intro h
          rcases ih h with h1 | h1
          · exact Or.inl h1
          · exact Or.inr (List.mem_cons_of_mem x h1)
        · rw [collapseWs, if_pos hx, if_neg hd]
          intro h
          rcases List.mem_cons.mp h with h1 | h1
          · exact Or.inl h1
          · rcases ih h1 with h2 | h2
            · exact Or.inl h2
            · exact Or.inr (List.mem_cons_of_mem x h2)
      · rw [collapseWs, if_neg hx]
        intro h
        rcases List.mem_cons.mp h with h1 | h1
        · exact Or.inr (h1 ▸ List.mem_cons_self x _)
        · rcases ih h1 with h2 | h2
          · exact Or.inl h2
          · exact Or.inr (List.mem_cons_of_mem x h2)

theorem collapseWs_length_le : ∀ l : List Char, (collapseWs l).length ≤ l.length := by
  intro l
  induction l with
  | nil => simp [collapseWs]
  | cons x cs ih =>
    cases cs with
    | nil =>
      by_cases hx : pyIsSpace x = true <;> simp [collapseWs, hx]
    | cons d rest =>
      by_cases hx : pyIsSpace x = true
      · by_cases hd : pyIsSpace d = true
        · rw [collapseWs, if_pos hx, if_pos hd]
          exact le_trans ih (Nat.le_succ _)
        · rw [collapseWs, if_pos hx, if_neg hd]
          simpa using ih
      · rw [collapseWs, if_neg hx]
        simpa using ih

theorem wsOnlySpace_collapseWs : ∀ l : List Char, wsOnlySpace (collapseWs l) := by
  intro l
  induction l with
  | nil => intro c hc; simp [collapseWs] at hc
  | cons x cs ih =>
    cases cs with
    | nil =>
      intro c hc hws
      by_cases hx : pyIsSpace x = true
      · rw [collapseWs, if_pos hx] at hc
        simpa using List.mem_singleton.mp hc
      · rw [collapseWs, if_neg hx] at hc
        rw [List.mem_singleton.mp hc] at hws
        exact absurd hws hx
    | cons d rest =>
      intro c hc hws
      by_cases hx : pyIsSpace x = true
      · by_cases hd : pyIsSpace d = true
        · rw [collapseWs, if_pos hx, if_pos hd] at hc
          exact ih c hc hws
        · rw [collapseWs, if_pos hx, if_neg hd] at hc
          rcases List.mem_cons.mp hc with h1 | h1
          · exact h1
          · exact ih c h1 hws
      · rw [collapseWs, if_neg hx] at hc
        rcases List.mem_cons.mp hc with h1 | h1
        · rw [h1] at hws
          exact absurd hws hx
        · exact ih c h1 hws

theorem collapseWs_cons_not_ws (d : Char) (rest : List Char) (hd : ¬ pyIsSpace d = true) :
    ∃ t, collapseWs (d :: rest) = d :: t := by
  cases rest with
  | nil => exact ⟨[], by rw [collapseWs, if_neg hd]⟩
  | cons e r2 => exact ⟨collapseWs (e :: r2), by rw [collapseWs, if_neg hd]⟩

theorem noAdjWs_collapseWs : ∀ l : List Char, noAdjWs (collapseWs l) := by
  intro l
  induction l with
  | nil => simp [collapseWs, noAdjWs]
  | cons x cs ih =>
    cases cs with
    | nil =>
      by_cases hx : pyIsSpace x = true <;> simp [collapseWs, hx, noAdjWs]
    | cons d rest =>
      by_cases hx : pyIsSpace x = true
      · by_cases hd : pyIsSpace d = true
        · rw [noAdjWs, collapseWs, if_pos hx, if_pos hd]
          exact ih
        · rw [noAdjWs, collapseWs, if_pos hx, if_neg hd]
          obtain ⟨t, ht⟩ := collapseWs_cons_not_ws d rest hd
          rw [ht]
          rw [List.chain'_cons']
          constructor
          · intro y hy
            rw [List.head?_cons, Option.mem_some_iff] at hy
            rw [← hy]
            intro hcon
            exact hd hcon.2
          · rw [← ht]
            exact ih
      · rw [noAdjWs, collapseWs, if_neg hx]
        rw [List.chain'_cons']
        refine ⟨?_, ih⟩
        intro y hy
        intro hcon
        exact hx hcon.1

theorem collapseWs_eq_self : ∀ l : List Char, wsOnlySpace l → noAdjWs l →
    collapseWs l = l := by
  intro l
  induction l with
  | nil => intro _ _; rfl
  | cons x cs ih =>
    cases cs with
    | nil =>
      intro honly _
      by_cases hx : pyIsSpace x = true
      · rw [collapseWs, if_pos hx, honly x (List.mem_cons_self x []) hx]
      · rw [collapseWs, if_neg hx]
    | cons d rest =>
      intro honly hadj
      by_cases hx : pyIsSpace x = true
      · have hd : ¬ pyIsSpace d = true := by
          have := (List.chain'_cons'.mp hadj).1 d (by simp)
          intro hdws
          exact this ⟨hx, hdws⟩
        rw [collapseWs, if_pos hx, if_neg hd]
        rw [honly x (List.mem_cons_self x _) hx]
        rw [ih (fun c hc hws => honly c (List.mem_cons_of_mem x hc) hws)
            (List.Chain'.tail hadj)]
      · rw [collapseWs, if_neg hx]
        rw [ih (fun c hc hws => honly c (List.mem_cons_of_mem x hc) hws)
            (List.Chain'.tail hadj)]

theorem head_dropWhile_false {p : Char → Bool} : ∀ (l : List Char) (c : Char) (t : List Char),
    List.dropWhile p l = c :: t → p c = false := by
  intro l
  induction l with
  | nil =>
    intro c t h
    simp [List.dropWhile] at h
  | cons x cs ih =>
    intro c t h
    by_cases hx : p x = true
    · rw [List.dropWhile_cons, if_pos hx] at h
      exact ih c t h
    · rw [List.dropWhile_cons, if_neg hx] at h
      injection h with h1 h2
      rw [← h1]
      simpa using hx

theorem dropWhile_eq_self_head {p : Char → Bool} (l : List Char)
    (h : ∀ c t, l = c :: t → p c = false) : List.dropWhile p l = l := by
  cases l with
  | nil => rfl
  | cons c t =>
    rw [List.dropWhile_cons, if_neg]
    simp [h c t rfl]

theorem mem_pyStrip {c : Char} (l : List Char) (h : c ∈ pyStrip l) : c ∈ l := by
  unfold pyStrip at h
  rw [List.mem_reverse] at h
  have h1 := List.Sublist.mem h (List.dropWhile_sublist _)
  rw [List.mem_reverse] at h1
  exact List.Sublist.mem h1 (List.dropWhile_sublist _)

theorem pyStrip_length_le (l : List Char) : (pyStrip l).length ≤ l.length := by
  unfold pyStrip
  rw [List.length_reverse]
  calc (List.dropWhile pyIsSpace (List.dropWhile pyIsSpace l).reverse).length
      ≤ (List.dropWhile pyIsSpace l).reverse.length :=
        (List.dropWhile_sublist _).length_le
    _ = (List.dropWhile pyIsSpace l).length := List.length_reverse _
    _ ≤ l.length := (List.dropWhile_sublist _).length_le

theorem noAdjWs_dropWhile (p : Char → Bool) : ∀ l : List Char,
    noAdjWs l → noAdjWs (List.dropWhile p l) := by
  intro l
  induction l with
  | nil => intro h; simpa using h
  | cons x cs ih =>
    intro h
    by_cases hx : p x = true
    · rw [List.dropWhile_cons, if_pos hx]
      exact ih (List.Chain'.tail h)
    · rw [List.dropWhile_cons, if_neg hx]
      exact h

theorem noAdjWs_reverse (l : List Char) (h : noAdjWs l) : noAdjWs l.reverse := by
  rw [noAdjWs, List.chain'_reverse]
  exact h.imp (fun a b hab => fun hcon => hab ⟨hcon.2, hcon.1⟩)

theorem noAdjWs_pyStrip (l : List Char) (h : noAdjWs l) : noAdjWs (pyStrip l) := by
  unfold pyStrip
  exact noAdjWs_reverse _ (noAdjWs_dropWhile _ _ (noAdjWs_reverse _ (noAdjWs_dropWhile _ _ h)))

theorem wsOnlySpace_pyStrip (l : List Char) (h : wsOnlySpace l) : wsOnlySpace (pyStrip l) :=
  fun c hc hws => h c (mem_pyStrip l hc) hws

theorem pyStrip_head (l : List Char) : ∀ (c : Char) (t : List Char),
    pyStrip l = c :: t → pyIsSpace c = false := by
  intro c t h
  unfold pyStrip at h
  have hsplit : (List.dropWhile pyIsSpace l).reverse =
      (List.dropWhile pyIsSpace l).reverse.takeWhile pyIsSpace ++
        (List.dropWhile pyIsSpace l).reverse.dropWhile pyIsSpace :=
    (List.takeWhile_append_dropWhile _ _).symm
  have ha2 : List.dropWhile pyIsSpace l =
      ((List.dropWhile pyIsSpace l).reverse.dropWhile pyIsSpace).reverse ++
        ((List.dropWhile pyIsSpace l).reverse.takeWhile pyIsSpace).reverse := by
    have h2 := congrArg List.reverse hsplit
    rw [List.reverse_reverse, List.reverse_append] at h2
    exact h2
  rw [h, List.cons_append] at ha2
  exact head_dropWhile_false l c _ ha2

theorem pyStrip_last (l : List Char) : ∀ (c : Char) (t : List Char),
    (pyStrip l).reverse = c :: t → pyIsSpace c = false := by
  intro c t h
  unfold pyStrip at h
  rw [List.reverse_reverse] at h
  exact head_dropWhile_false _ c t h

theorem pyStrip_eq_self (l : List Char)
    (hh : ∀ c t, l = c :: t → pyIsSpace c = false)
    (hl : ∀ c t, l.reverse = c :: t → pyIsSpace c = false) : pyStrip l = l := by
  unfold pyStrip
  rw [dropWhile_eq_self_head l hh, dropWhile_eq_self_head l.reverse hl]
  exact List.reverse_reverse l

theorem nwCore_idem (l : List Char) :
    pyStrip (collapseWs (pyStrip (collapseWs l))) = pyStrip (collapseWs l) := by
  have h1 : wsOnlySpace (pyStrip (collapseWs l)) :=
    wsOnlySpace_pyStrip _ (wsOnlySpace_collapseWs l)
  have h2 : noAdjWs (pyStrip (collapseWs l)) :=
    noAdjWs_pyStrip _ (noAdjWs_collapseWs l)
  rw [collapseWs_eq_self _ h1 h2]
  exact pyStrip_eq_self _ (fun c t ht => pyStrip_head (collapseWs l) c t ht)
    (fun c t ht => pyStrip_last (collapseWs l) c t ht)

theorem noQuotes_nwCore (l : List Char) (h : noQuotes l) :
    noQuotes (pyStrip (collapseWs l)) := by
  constructor
  · intro hc
    rcases mem_collapseWs _ (mem_pyStrip _ hc) with h1 | h1
    · exact absurd h1 (by decide)
    · exact h.1 h1
  · intro hc
    rcases mem_collapseWs _ (mem_pyStrip _ hc) with h1 | h1
    · exact absurd h1 (by decide)
    · exact h.2 h1

/-! Validation inversions and the idempotence theorem. -/

theorem fmtValidateText_none (l : List Char) (h : fmtValidateText l = none) :
    pyStrip l ≠ [] ∧ l.length ≤ FMT_MAX_TEXT_LENGTH := by
  rw [fmtValidateText] at h
  by_cases h1 : pyStrip l = []
  · rw [if_pos h1] at h
    cases h
  · rw [if_neg h1] at h
    by_cases h2 : FMT_MAX_TEXT_LENGTH < l.length
    · rw [if_pos h2] at h
      cases h
    · exact ⟨h1, Nat.not_lt.mp h2⟩

theorem fmtValidateText_none_of (l : List Char) (h1 : pyStrip l ≠ [])
    (h2 : l.length ≤ FMT_MAX_TEXT_LENGTH) : fmtValidateText l = none := by
  rw [fmtValidateText, if_neg h1, if_neg (Nat.not_lt.mpr h2)]

theorem fmtValidateResult_ok (l r : List Char) (h : fmtValidateResult l = .ok r) :
    r = l ∧ pyStrip l ≠ [] := by
  rw [fmtValidateResult] at h
  by_cases h1 : pyStrip l = []
  · rw [if_pos h1] at h
    cases h
  · rw [if_neg h1] at h
    injection h with h2
    exact ⟨h2.symm, h1⟩

theorem convert_smart_quotes_ok (l r : List Char) (h : convert_smart_quotes l = .ok r) :
    r = sqSingle false (sqDouble false l) := by
  rcases hval : fmtValidateText l with _ | er
  · simp only [convert_smart_quotes, hval] at h
    exact (fmtValidateResult_ok _ _ h).1
  · simp only [convert_smart_quotes, hval] at h
    exact Except.noConfusion h

theorem normalize_whitespace_ok (l r : List Char) (h : normalize_whitespace l = .ok r) :
    r = pyStrip (collapseWs l) := by
  rcases hval : fmtValidateText l with _ | er
  · simp only [normalize_whitespace, hval] at h
    exact (fmtValidateResult_ok _ _ h).1
  · simp only [normalize_whitespace, hval] at h
    exact Except.noConfusion h

theorem processTextL_ok_self (o : Ops) (y : List Char)
    (hru : o.russian_punctuation = false) (hfx : o.fix_common_issues = false)
    (hstrip : pyStrip y ≠ []) (hlen : y.length ≤ FMT_MAX_TEXT_LENGTH)
    (hsq : o.smart_quotes = true → sqSingle false (sqDouble false y) = y)
    (hnw : o.normalize_whitespace = true → pyStrip (collapseWs y) = y) :
    processTextL o y = .ok y := by
  have hv : fmtValidateText y = none := fmtValidateText_none_of y hstrip hlen
  have hres : fmtValidateResult y = .ok y := by rw [fmtValidateResult, if_neg hstrip]
  have hstep1 : (if o.smart_quotes = true then convert_smart_quotes y else Except.ok y) =
      Except.ok y := by
    cases hsq1 : o.smart_quotes
    · rw [if_neg (by simp)]
    · rw [if_pos rfl]
      simp only [convert_smart_quotes, hv, hsq hsq1]
      exact hres
  have hstep3 : (if o.normalize_whitespace = true then normalize_whitespace y
      else Except.ok y) = Except.ok y := by
    cases hnw1 : o.normalize_whitespace
    · rw [if_neg (by simp)]
    · rw [if_pos rfl]
      simp only [normalize_whitespace, hv, hnw hnw1]
      exact hres
  simp only [processTextL, hv, hstep1, hru, hfx, Bool.false_eq_true, if_false, hstep3]
  exact hres

/-- Body-level analysis: `processTextL` (the body of `process_text`) is
idempotent for every toggle combination with `russian_punctuation` and
`fix_common_issues` disabled.  (No external call reaches the body with such a
combination — selecting it requires an operations dict, which the `lru_cache`
wrapper rejects — so this is a fact about the body only.) -/
theorem processTextL_idem (o : Ops) (x y : List Char)
    (hru : o.russian_punctuation = false) (hfx : o.fix_common_issues = false)
    (h : processTextL o x = .ok y) : processTextL o y = .ok y := by
  rcases hval : fmtValidateText x with _ | er
  · obtain ⟨hxstrip, hxlen⟩ := fmtValidateText_none x hval
    rcases h1 : (if o.smart_quotes = true then convert_smart_quotes x else Except.ok x)
      with er1 | r1
    · simp only [processTextL, hval, h1] at h
      exact Except.noConfusion h
    · rcases h3 : (if o.normalize_whitespace = true then normalize_whitespace r1
        else Except.ok r1) with er3 | r3
      · simp only [processTextL, hval, h1, hru, Bool.false_eq_true, if_false, h3] at h
        exact Except.noConfusion h
      · simp only [processTextL, hval, h1, hru, hfx, Bool.false_eq_true, if_false, h3] at h
        obtain ⟨hy, hstr3⟩ := fmtValidateResult_ok r3 y h
        subst hy
        -- facts about r1
        have hr1 : (o.smart_quotes = true → r1 = sqSingle false (sqDouble false x)) ∧
            (o.smart_quotes = false → r1 = x) := by
          by_cases hsq1 : o.smart_quotes = true
          · rw [if_pos hsq1] at h1
            refine ⟨fun _ => convert_smart_quotes_ok x r1 h1, fun hc => ?_⟩
            rw [hsq1] at hc
            exact absurd hc (by simp)
          · rw [if_neg hsq1] at h1
            injection h1 with h1'
            exact ⟨fun hc => absurd hc hsq1, fun _ => h1'.symm⟩
        have hlen1 : r1.length ≤ x.length := by
          by_cases hsq1 : o.smart_quotes = true
          · rw [hr1.1 hsq1]
            calc (sqSingle false (sqDouble false x)).length
                ≤ (sqDouble false x).length := sqSingle_false_length_le _
              _ = x.length := sqDouble_length false x
          · rw [hr1.2 (by simpa using hsq1)]
        have hq1 : o.smart_quotes = true → noQuotes r1 := by
          intro hsq1
          rw [hr1.1 hsq1]
          exact noQuotes_sq x
        -- facts about y (the surviving name of the step-3 output)
        have hr3 : (o.normalize_whitespace = true → y = pyStrip (collapseWs r1)) ∧
            (o.normalize_whitespace = false → y = r1) := by
          by_cases hnw1 : o.normalize_whitespace = true
          · rw [if_pos hnw1] at h3
            refine ⟨fun _ => normalize_whitespace_ok r1 y h3, fun hc => ?_⟩
            rw [hnw1] at hc
            exact absurd hc (by simp)
          · rw [if_neg hnw1] at h3
            injection h3 with h3'
            exact ⟨fun hc => absurd hc hnw1, fun _ => h3'.symm⟩
        have hlen3 : y.length ≤ r1.length := by
          by_cases hnw1 : o.normalize_whitespace = true
          · rw [hr3.1 hnw1]
            exact le_trans (pyStrip_length_le _) (collapseWs_length_le _)
          · rw [hr3.2 (by simpa using hnw1)]
        have hq3 : o.smart_quotes = true → noQuotes y := by
          intro hsq1
          by_cases hnw1 : o.normalize_whitespace = true
          · rw [hr3.1 hnw1]
            exact noQuotes_nwCore r1 (hq1 hsq1)
          · rw [hr3.2 (by simpa using hnw1)]
            exact hq1 hsq1
        refine processTextL_ok_self o y hru hfx hstr3
          (le_trans hlen3 (le_trans hlen1 hxlen)) ?_ ?_
        · intro hsq1
          exact sq_eq_self y (hq3 hsq1)
        · intro hnw1
          rw [hr3.1 hnw1]
          exact nwCore_idem r1
  · simp only [processTextL, hval] at h
    exact Except.noConfusion h

/-- C8 (amended): selecting ANY toggle combination explicitly — passing an
operations dictionary to `TextFormatter.process_text` — never formats
anything: the `lru_cache` wrapper fails to hash the dict argument and raises
`TypeError: unhashable type: 'dict'` before the body, and hence before even
the input validation, runs — for every text, valid or not, and every toggle
combination.  The only executable call shape is the `operations=None` default
(all four operations enabled), and on it formatting is not idempotent (see
the counterexample). -/
theorem c8_process_text_dict_typeerror (o : Ops) (s : String) :
    process_text (some o) s = .error (.typeError "unhashable type: 'dict'") :=
  rfl

/-- Witness for C8 (amended) at the translator's own options dict and a
concrete text. -/
theorem c8_process_text_dict_typeerror_witness :
    process_text (some opsAll) "a . . b" =
      .error (.typeError "unhashable type: 'dict'") :=
  c8_process_text_dict_typeerror opsAll "a . . b"

/-- Counterexample to C8 as stated: on the one executable call shape,
`operations=None` (all four toggles on, also the translator default),
`fix_common_issues` turns "a . . b" into "a.. b" (deleting the spaces before
the periods creates an adjacent pair), and a second full formatting pass
collapses the pair: format(format(x)) = "a. b" ≠ "a.. b" = format(x). -/
theorem c8_not_idempotent_cex :
    process_text none "a . . b" = .ok "a.. b" ∧
    process_text none "a.. b" = .ok "a. b" :=
  ⟨rfl, rfl⟩

/-! ## C1 — translate_batch agrees with elementwise translate -/

theorem getD_mem_of_lt {α : Type} : ∀ (l : List α) (i : Nat) (d : α),
    i < l.length → l.getD i d ∈ l := by
  intro l
  induction l with
  | nil =>
    intro i d h
    exact absurd h (Nat.not_lt_zero i)
  | cons x xs ih =>
    intro i d h
    cases i with
    | zero => simp [List.getD_cons_zero]
    | succ n =>
      rw [List.getD_cons_succ]
      exact List.mem_cons_of_mem x (ih n d (Nat.lt_of_succ_lt_succ h))

theorem dictFind_mem (k : String) : ∀ (c : List (String × Entry)) (e : Entry),
    dictFind k c = some e → (k, e) ∈ c := by
  intro c
  induction c with
  | nil =>
    intro e h
    cases h
  | cons kv rest ih =>
    intro e h
    obtain ⟨k0, v0⟩ := kv
    by_cases h0 : k0 = k
    · rw [dictFind, if_pos h0] at h
      injection h with h'
      rw [← h', ← h0]
      exact List.mem_cons_self _ _
    · rw [dictFind, if_neg h0] at h
      exact List.mem_cons_of_mem _ (ih e h)

theorem todoTexts_mem : ∀ (items : List BItem) (t : String),
    BItem.todo t ∈ items → t ∈ todoTexts items := by
  intro items
  induction items with
  | nil =>
    intro t h
    cases h
  | cons it its ih =>
    intro t h
    rcases List.mem_cons.mp h with h1 | h1
    · rw [← h1, todoTexts]
      exact List.mem_cons_self _ _
    · cases it with
      | done r =>
        rw [todoTexts]
        exact ih t h1
      | todo t2 =>
        rw [todoTexts]
        exact List.mem_cons_of_mem _ (ih t h1)

theorem validate_batch_go_none : ∀ (texts : List String) (i total : Nat),
    validate_batch_go i total texts = none → ∀ t ∈ texts, validate_text t = none := by
  intro texts
  induction texts with
  | nil =>
    intro i total h t ht
    cases ht
  | cons x xs ih =>
    intro i total h t ht
    rw [validate_batch_go] at h
    by_cases h1 : pyStripStr x = ""
    · rw [if_pos h1] at h
      cases h
    · rw [if_neg h1] at h
      by_cases h2 : MODEL_MAX_TEXT_LENGTH < x.length
      · rw [if_pos h2] at h
        cases h
      · rw [if_neg h2] at h
        rcases List.mem_cons.mp ht with rfl | ht'
        · rw [validate_text, if_neg h1, if_neg h2]
        · exact ih _ _ h t ht'

theorem validate_batch_none (texts : List String) (h : validate_batch texts = none) :
    ∀ t ∈ texts, validate_text t = none := by
  rw [validate_batch] at h
  by_cases he : texts = []
  · subst he
    intro t ht
    cases ht
  · rw [if_neg he] at h
    exact validate_batch_go_none texts 0 0 h

theorem mapExcept_ok_cons (f : String → Except Err String) (x : String) (xs : List String)
    (bs : List String) (h : mapExcept f (x :: xs) = .ok bs) :
    ∃ b bs', bs = b :: bs' ∧ f x = .ok b ∧ mapExcept f xs = .ok bs' := by
  rcases hf : f x with e | b
  · simp only [mapExcept, hf] at h
    exact Except.noConfusion h
  · rcases hrest : mapExcept f xs with e | bs'
    · simp only [mapExcept, hf, hrest] at h
      exact Except.noConfusion h
    · simp only [mapExcept, hf, hrest] at h
      injection h with h'
      exact ⟨b, bs', h'.symm, rfl, rfl⟩

theorem mTranslateBatch_ok (gen : String → Except Err String) (ms : ModelState)
    (texts : List String) (raws : List String)
    (h : (mTranslateBatch gen ms texts).2 = .ok raws) :
    ms.loaded = true ∧ validate_batch texts = none ∧ mapExcept gen texts = .ok raws := by
  simp only [mTranslateBatch] at h
  by_cases hl : ms.loaded = false
  · rw [if_pos hl] at h
    cases h
  · rw [if_neg hl] at h
    rcases hv : validate_batch texts with _ | e
    · simp only [hv] at h
      exact ⟨Bool.of_not_eq_false hl, rfl, h⟩
    · simp only [hv] at h
      exact Except.noConfusion h
  
theorem reach_refl (P : Oracle) (st0 : TransState) : Reach P st0 st0 :=
  ⟨rfl, rfl, rfl, rfl, rfl, rfl, rfl, rfl, fun _ => Or.inl rfl⟩

theorem reach_hit_cases (P : Oracle) (st0 st : TransState) (tx : String) (e : Entry)
    (hR : Reach P st0 st) (hen : st0.cache_enabled = true)
    (hhit : hitEntry P.md5hex st tx = some e) :
    hitEntry P.md5hex st0 tx = some e ∨
    (∃ e0 t0, hitEntry P.md5hex st0 tx = some e0 ∧ e0.formatted = false ∧
      e0.model_id = st0.current_model_id ∧
      process_text (some st0.opts) e0.translation_raw = .ok t0 ∧
      e = { e0 with translation_formatted := some t0, formatted := true }) := by
  obtain ⟨hsten, hdf, hmodel⟩ := hitEntry_some P.md5hex st tx e hhit
  rcases hR.cache (cacheKey P.md5hex tx) with hsame | ⟨e0, t0, hdf0, hm0, hf0, hpt0, hdfst⟩
  · left
    unfold hitEntry
    rw [if_pos hen, ← hsame, hdf]
    simp only
    rw [if_pos (by rw [← hR.model]; exact hmodel)]
  · right
    have he : e = { e0 with translation_formatted := some t0, formatted := true } := by
      rw [hdfst] at hdf
      injection hdf with h'
      exact h'.symm
    refine ⟨e0, t0, ?_, hf0, hm0, hpt0, he⟩
    unfold hitEntry
    rw [if_pos hen, hdf0]
    simp only
    rw [if_pos hm0]

theorem reach_miss (P : Oracle) (st0 st : TransState) (tx : String)
    (hR : Reach P st0 st) (hen : st0.cache_enabled = true)
    (hmiss : hitEntry P.md5hex st tx = none) :
    hitEntry P.md5hex st0 tx = none := by
  have hsten : st.cache_enabled = true := hR.enabled.trans hen
  rcases hR.cache (cacheKey P.md5hex tx) with hsame | ⟨e0, t0, hdf0, hm0, hf0, hpt0, hdfst⟩
  · unfold hitEntry at hmiss ⊢
    rw [if_pos hen]
    rw [if_pos hsten, hsame] at hmiss
    rcases hdf0 : dictFind (cacheKey P.md5hex tx) st0.cache with _ | e1
    · simp only
    · rw [hdf0] at hmiss
      simp only at hmiss ⊢
      by_cases hm1 : e1.model_id = st0.current_model_id
      · rw [if_pos (by rw [hR.model]; exact hm1)] at hmiss
        cases hmiss
      · rw [if_neg hm1]
  · exfalso
    unfold hitEntry at hmiss
    rw [if_pos hsten, hdfst] at hmiss
    simp only at hmiss
    rw [if_pos (by simpa [hR.model] using hm0)] at hmiss
    cases hmiss

theorem reach_update (P : Oracle) (st0 st : TransState) (tx : String) (e : Entry) (t : String)
    (hR : Reach P st0 st) (_hen : st0.cache_enabled = true)
    (hhit0 : hitEntry P.md5hex st0 tx = some e)
    (hf : e.formatted = false)
    (hpt : process_text (some st0.opts) e.translation_raw = .ok t) :
    Reach P st0
      { st with
        cache :=
          dictInsert (cacheKey P.md5hex tx)
            ({ e with translation_formatted := some t, formatted := true }) st.cache } := by
  obtain ⟨_, hdf0, hm0⟩ := hitEntry_some P.md5hex st0 tx e hhit0
  refine ⟨hR.enabled, hR.model, hR.optsEq, hR.msEq, hR.limitEq, hR.opsEq, hR.gpuEq,
    hR.metaEq, ?_⟩
  intro k
  by_cases hk : k = cacheKey P.md5hex tx
  · subst hk
    right
    refine ⟨e, t, hdf0, hm0, hf, hpt, ?_⟩
    show dictFind _ (dictInsert _ _ _) = _
    rw [dictFind_dictInsert, if_pos rfl]
  · rcases hR.cache k with hsame | ⟨e0, t0, hdf0', hm0', hf0', hpt0', hdfst'⟩
    · left
      show dictFind _ (dictInsert _ _ _) = _
      rw [dictFind_dictInsert, if_neg hk]
      exact hsame
    · right
      refine ⟨e0, t0, hdf0', hm0', hf0', hpt0', ?_⟩
      show dictFind _ (dictInsert _ _ _) = _
      rw [dictFind_dictInsert, if_neg hk]
      exact hdfst'

/-- Shape of the per-index guarantee of the first batch pass. -/
def IdxSpec (P : Oracle) (flag : Bool) (st0 : TransState)
    (texts : List String) (items : List BItem) : Prop :=
  ∀ i, i < texts.length →
    (match items.getD i (.done none) with
     | .done r => ∀ n : Int, (translate P n st0 (texts.getD i "") flag).2 = .ok r
     | .todo t => t = texts.getD i "" ∧ texts.getD i "" ≠ "" ∧
         hitEntry P.md5hex st0 (texts.getD i "") = none)

theorem idxSpec_cons {P : Oracle} {flag : Bool} {st0 : TransState}
    {tx : String} {txs : List String} {it : BItem} {its : List BItem}
    (hhead : match it with
       | .done r => ∀ n : Int, (translate P n st0 tx flag).2 = .ok r
       | .todo t => t = tx ∧ tx ≠ "" ∧ hitEntry P.md5hex st0 tx = none)
    (htail : IdxSpec P flag st0 txs its) :
    IdxSpec P flag st0 (tx :: txs) (it :: its) := by
  intro i hi
  cases i with
  | zero => simpa [List.getD_cons_zero] using hhead
  | succ n =>
    have := htail n (by simpa using hi)
    simpa [List.getD_cons_succ] using this

theorem batchPass_spec (P : Oracle) (flag : Bool) (st0 : TransState)
    (hwf : wfCache st0.cache) (hen : st0.cache_enabled = true) :
    ∀ (texts : List String) (st st' : TransState) (items : List BItem),
      Reach P st0 st →
      batchPass P flag st texts = .ok (st', items) →
      Reach P st0 st' ∧ items.length = texts.length ∧
        IdxSpec P flag st0 texts items := by
  intro texts
  induction texts with
  | nil =>
    intro st st' items hR h
    simp only [batchPass, Except.ok.injEq, Prod.mk.injEq] at h
    obtain ⟨h1, h2⟩ := h
    subst h1
    subst h2
    exact ⟨hR, rfl, fun i hi => absurd hi (by simp)⟩
  | cons tx txs ih =>
    intro st st' items hR h
    simp only [batchPass] at h
    by_cases htx : tx = ""
    · rw [if_pos htx] at h
      rcases hrec : batchPass P flag st txs with e2 | pr
      · rw [hrec] at h
        exact Except.noConfusion h
      · obtain ⟨st2, its⟩ := pr
        rw [hrec] at h
        simp only [Except.ok.injEq, Prod.mk.injEq] at h
        obtain ⟨h1, h2⟩ := h
        subst h1
        subst h2
        obtain ⟨hR', hlen, hidx⟩ := ih st st2 its hR hrec
        refine ⟨hR', by simp [hlen], idxSpec_cons ?_ hidx⟩
        intro n
        subst htx
        simp [translate]
    · rw [if_neg htx] at h
      rcases hhit : hitEntry P.md5hex st tx with _ | e
      · -- miss: todo item
        simp only [hhit] at h
        rcases hrec : batchPass P flag st txs with e2 | pr
        · rw [hrec] at h
          exact Except.noConfusion h
        · obtain ⟨st2, its⟩ := pr
          rw [hrec] at h
          simp only [Except.ok.injEq, Prod.mk.injEq] at h
          obtain ⟨h1, h2⟩ := h
          subst h1
          subst h2
          obtain ⟨hR', hlen, hidx⟩ := ih st st2 its hR hrec
          exact ⟨hR', by simp [hlen],
            idxSpec_cons ⟨rfl, htx, reach_miss P st0 st tx hR hen hhit⟩ hidx⟩
      · -- hit
        simp only [hhit] at h
        by_cases hbr1 : (flag && !e.formatted) = true
        · rw [if_pos hbr1] at h
          have hflag : flag = true := by
            cases flag
            · simp at hbr1
            · rfl
          have hfmt : e.formatted = false := by
            cases hfm : e.formatted
            · rfl
            · rw [hfm] at hbr1
              simp at hbr1
          rcases hpt : process_text (some st.opts) e.translation_raw with er | t
          · simp only [hpt] at h
            exact Except.noConfusion h
          · simp only [hpt] at h
            rcases reach_hit_cases P st0 st tx e hR hen hhit with
              hhit0 | ⟨e0, t0, _, _, _, _, heup⟩
            swap
            · exfalso
              rw [heup] at hfmt
              simp at hfmt
            · have htr : e.translation = e.translation_raw := by
                obtain ⟨_, hdf0, _⟩ := hitEntry_some P.md5hex st0 tx e hhit0
                exact hwf (cacheKey P.md5hex tx, e) (dictFind_mem _ _ _ hdf0) hfmt
              have hpt0 : process_text (some st0.opts) e.translation = .ok t := by
                rw [htr, ← hR.optsEq]
                exact hpt
              rcases hrec : batchPass P flag
                  { st with
                    cache := dictInsert (cacheKey P.md5hex tx)
                      ({ e with translation_formatted := some t, formatted := true })
                      st.cache } txs with e2 | pr
              · rw [hrec] at h
                exact Except.noConfusion h
              · obtain ⟨st2, its⟩ := pr
                rw [hrec] at h
                simp only [Except.ok.injEq, Prod.mk.injEq] at h
                obtain ⟨h1, h2⟩ := h
                subst h1
                subst h2
                have hRup := reach_update P st0 st tx e t hR hen hhit0 hfmt
                  (by rw [← hR.optsEq]; exact hpt)
                obtain ⟨hR', hlen, hidx⟩ := ih _ st2 its hRup hrec
                refine ⟨hR', by simp [hlen], idxSpec_cons ?_ hidx⟩
                intro n
                subst hflag
                simp [translate, htx, hhit0, hfmt, hpt0]
        · rw [if_neg hbr1] at h
          by_cases hbr2 : (!flag && e.formatted) = true
          · rw [if_pos hbr2] at h
            have hflag : flag = false := by
              cases flag
              · rfl
              · simp at hbr2
            have hfmt : e.formatted = true := by
              cases hfm : e.formatted
              · rw [hfm] at hbr2
                simp at hbr2
              · rfl
            rcases hrec : batchPass P flag st txs with e2 | pr
            · rw [hrec] at h
              exact Except.noConfusion h
            · obtain ⟨st2, its⟩ := pr
              rw [hrec] at h
              simp only [Except.ok.injEq, Prod.mk.injEq] at h
              obtain ⟨h1, h2⟩ := h
              subst h1
              subst h2
              obtain ⟨hR', hlen, hidx⟩ := ih st st2 its hR hrec
              refine ⟨hR', by simp [hlen], idxSpec_cons ?_ hidx⟩
              rcases reach_hit_cases P st0 st tx e hR hen hhit with
                hhit0 | ⟨e0, t0, hhit0, hf0, _, hpt0, heup⟩
              · intro n
                subst hflag
                simp [translate, htx, hhit0, hfmt]
              · intro n
                subst hflag
                have htr0 : e0.translation = e0.translation_raw := by
                  obtain ⟨_, hdf0, _⟩ := hitEntry_some P.md5hex st0 tx e0 hhit0
                  exact hwf (cacheKey P.md5hex tx, e0) (dictFind_mem _ _ _ hdf0) hf0
                have hraw : e.translation_raw = e0.translation_raw := by
                  rw [heup]
                simp [translate, htx, hhit0, hf0, hraw, htr0]
          · rw [if_neg hbr2] at h
            by_cases hbr3 : (flag && e.formatted) = true
            · rw [if_pos hbr3] at h
              have hflag : flag = true := by
                cases flag
                · simp at hbr3
                · rfl
              have hfmt : e.formatted = true := by
                cases hfm : e.formatted
                · rw [hfm] at hbr3
                  simp at hbr3
                · rfl
              rcases hrec : batchPass P flag st txs with e2 | pr
              · rw [hrec] at h
                exact Except.noConfusion h
              · obtain ⟨st2, its⟩ := pr
                rw [hrec] at h
                simp only [Except.ok.injEq, Prod.mk.injEq] at h
                obtain ⟨h1, h2⟩ := h
                subst h1
                subst h2
                obtain ⟨hR', hlen, hidx⟩ := ih st st2 its hR hrec
                refine ⟨hR', by simp [hlen], idxSpec_cons ?_ hidx⟩
                rcases reach_hit_cases P st0 st tx e hR hen hhit with
                  hhit0 | ⟨e0, t0, hhit0, hf0, _, hpt0, heup⟩
                · intro n
                  subst hflag
                  simp [translate, htx, hhit0, hfmt]
                · intro n
                  subst hflag
                  have htr0 : e0.translation = e0.translation_raw := by
                    obtain ⟨_, hdf0, _⟩ := hitEntry_some P.md5hex st0 tx e0 hhit0
                    exact hwf (cacheKey P.md5hex tx, e0) (dictFind_mem _ _ _ hdf0) hf0
                  have htf : e.translation_formatted = some t0 := by
                    rw [heup]
                  have hpt0' : process_text (some st0.opts) e0.translation = .ok t0 := by
                    rw [htr0]
                    exact hpt0
                  simp [translate, htx, hhit0, hf0, htf, hpt0']
            · rw [if_neg hbr3] at h
              have hflag : flag = false := by
                cases flag
                · rfl
                · cases hfm : e.formatted
                  · rw [hfm] at hbr1
                    simp at hbr1
                  · rw [hfm] at hbr3
                    simp at hbr3
              have hfmt : e.formatted = false := by
                cases hfm : e.formatted
                · rfl
                · rw [hflag, hfm] at hbr2
                  simp at hbr2
              rcases hrec : batchPass P flag st txs with e2 | pr
              · rw [hrec] at h
                exact Except.noConfusion h
              · obtain ⟨st2, its⟩ := pr
                rw [hrec] at h
                simp only [Except.ok.injEq, Prod.mk.injEq] at h
                obtain ⟨h1, h2⟩ := h
                subst h1
                subst h2
                obtain ⟨hR', hlen, hidx⟩ := ih st st2 its hR hrec
                refine ⟨hR', by simp [hlen], idxSpec_cons ?_ hidx⟩
                rcases reach_hit_cases P st0 st tx e hR hen hhit with
                  hhit0 | ⟨e0, t0, hhit0, hf0, _, hpt0, heup⟩
                · intro n
                  subst hflag
                  simp [translate, htx, hhit0, hfmt]
                · exfalso
                  rw [heup] at hfmt
                  simp at hfmt

theorem translate_miss_result (P : Oracle) (n : Int) (st0 : TransState) (flag : Bool)
    (t raw fm : String)
    (hne : t ≠ "") (hmiss : hitEntry P.md5hex st0 t = none)
    (hloaded : st0.ms.loaded = true) (hval : validate_text t = none)
    (hgen : P.gen t = .ok raw)
    (hfm : (if flag = true then process_text (some st0.opts) raw else Except.ok raw) =
      Except.ok fm) :
    (translate P n st0 t flag).2 = .ok (some fm) := by
  have hms : (mTranslate P.gen st0.ms t).2 = Except.ok raw := by
    simp [mTranslate, hloaded, hval, hgen]
  by_cases hce : st0.cache_enabled = true <;>
    simp [translate, hne, hmiss, hms, hfm, hce]

theorem aligned_of (P : Oracle) (o : Ops) (flag : Bool) :
    ∀ (items : List BItem) (raws newts : List String),
      mapExcept P.gen (todoTexts items) = .ok raws →
      (flag = true → mapExcept (process_text (some o)) raws = .ok newts) →
      (flag = false → newts = raws) →
      Aligned P o flag items (raws.zip newts) := by
  intro items
  induction items with
  | nil =>
    intro raws newts h1 h2 h3
    rw [todoTexts] at h1
    rw [show mapExcept P.gen [] = Except.ok [] from rfl] at h1
    injection h1 with h1'
    subst h1'
    rw [List.zip_nil_left]
    exact Aligned.nil
  | cons it its ih =>
    cases it with
    | done r =>
      intro raws newts h1 h2 h3
      rw [todoTexts] at h1
      exact Aligned.done r its _ (ih raws newts h1 h2 h3)
    | todo t =>
      intro raws newts h1 h2 h3
      rw [todoTexts] at h1
      obtain ⟨raw, raws', hr, hgen, hrest⟩ := mapExcept_ok_cons _ _ _ _ h1
      subst hr
      cases flag
      · have hnew := h3 rfl
        subst hnew
        rw [List.zip_cons_cons]
        exact Aligned.todo t raw raw its _ hgen (by simp)
          (ih raws' raws' hrest (fun hc => absurd hc (by simp)) (fun _ => rfl))
      · obtain ⟨fm, newts', hn, hfm, hnrest⟩ := mapExcept_ok_cons _ _ _ _ (h2 rfl)
        subst hn
        rw [List.zip_cons_cons]
        exact Aligned.todo t raw fm its _ hgen (by simpa using hfm)
          (ih raws' newts' hrest (fun _ => hnrest) (fun hc => absurd hc (by simp)))

theorem fillItems_length (now : Int) (md5hex : String → String) (flag : Bool)
    (cur : String) (en : Bool) :
    ∀ (items : List BItem) (prs : List (String × String)) (cache : List (String × Entry)),
      (fillItems now md5hex flag cur en items prs cache).1.length = items.length := by
  intro items
  induction items with
  | nil =>
    intro prs cache
    rfl
  | cons it its ih =>
    intro prs cache
    cases it with
    | done r =>
      rw [fillItems]
      simp [ih]
    | todo t =>
      cases prs with
      | nil =>
        rw [fillItems]
        simp [ih]
      | cons pr prs' =>
        obtain ⟨raw, fm⟩ := pr
        rw [fillItems]
        simp [ih]

theorem getD_map_bitem (f : BItem → Option String) :
    ∀ (items : List BItem) (i : Nat), i < items.length →
      (items.map f).getD i none = f (items.getD i (.done none)) := by
  intro items
  induction items with
  | nil =>
    intro i hi
    exact absurd hi (by simp)
  | cons it its ih =>
    intro i hi
    cases i with
    | zero => simp [List.getD_cons_zero]
    | succ n =>
      simp only [List.map_cons, List.getD_cons_succ]
      exact ih n (by simpa using hi)

theorem fillItems_correct (P : Oracle) (now : Int) (flag : Bool) (st0 : TransState)
    (cur : String) (en : Bool) (hloaded : st0.ms.loaded = true) :
    ∀ (items : List BItem) (texts : List String) (prs : List (String × String))
      (cache : List (String × Entry)),
      items.length = texts.length →
      IdxSpec P flag st0 texts items →
      Aligned P st0.opts flag items prs →
      (∀ t ∈ todoTexts items, validate_text t = none) →
      ∀ i, i < texts.length → ∀ n : Int,
        (translate P n st0 (texts.getD i "") flag).2 =
          .ok ((fillItems now P.md5hex flag cur en items prs cache).1.getD i none) := by
  intro items
  induction items with
  | nil =>
    intro texts prs cache hlen hidx halg hval i hi n
    rw [← hlen] at hi
    exact absurd hi (by simp)
  | cons it its ih =>
    intro texts prs cache hlen hidx halg hval i hi n
    cases texts with
    | nil => exact absurd hi (by simp)
    | cons tx txs =>
      cases it with
      | done r =>
        cases halg with
        | done _ _ _ halg2 =>
          cases i with
          | zero =>
            have hh := hidx 0 (by simp)
            simp only [List.getD_cons_zero] at hh ⊢
            rw [fillItems]
            simp only [List.getD_cons_zero]
            exact hh n
          | succ i2 =>
            have hlen2 : its.length = txs.length := by simpa using hlen
            have hidx2 : IdxSpec P flag st0 txs its := by
              intro i3 hi3
              have := hidx (i3 + 1) (by simpa using hi3)
              simpa [List.getD_cons_succ] using this
            have hval2 : ∀ t ∈ todoTexts its, validate_text t = none := by
              intro t2 ht2
              exact hval t2 (by rw [todoTexts]; exact ht2)
            rw [fillItems]
            simp only [List.getD_cons_succ]
            exact ih txs prs cache hlen2 hidx2 halg2 hval2 i2 (by simpa using hi) n
      | todo t =>
        cases halg with
        | todo _ raw fm _ prs2 hgen hfm halg2 =>
          have hvalt : validate_text t = none :=
            hval t (by rw [todoTexts]; exact List.mem_cons_self _ _)
          have hval2 : ∀ t2 ∈ todoTexts its, validate_text t2 = none := by
            intro t2 ht2
            exact hval t2 (by rw [todoTexts]; exact List.mem_cons_of_mem _ ht2)
          cases i with
          | zero =>
            have hh := hidx 0 (by simp)
            simp only [List.getD_cons_zero] at hh ⊢
            obtain ⟨hteq, hne, hmiss⟩ := hh
            rw [fillItems]
            simp only [List.getD_cons_zero]
            rw [← hteq]
            exact translate_miss_result P n st0 flag t raw fm
              (fun hcc => hne (hteq ▸ hcc)) (hteq ▸ hmiss) hloaded hvalt hgen hfm
          | succ i2 =>
            have hlen2 : its.length = txs.length := by simpa using hlen
            have hidx2 : IdxSpec P flag st0 txs its := by
              intro i3 hi3
              have := hidx (i3 + 1) (by simpa using hi3)
              simpa [List.getD_cons_succ] using this
            rw [fillItems]
            simp only [List.getD_cons_succ]
            exact ih txs prs2 _ hlen2 hidx2 halg2 hval2 i2 (by simpa using hi) n

/-- Central elementwise correspondence: with the cache enabled and a cache in
the shape the program itself writes (`wfCache`), a successful
`translate_batch` returns one output per input, the i-th being what
`Translator.translate` would return for the i-th input in the same starting
cache state.  (With `apply_formatting=True` a run can only succeed when no
element needs formatting — every non-empty element is an already-formatted
hit — since the wrapped `process_text` raises on the options dict; with
`apply_formatting=False` every backend-successful run is of this form.) -/
theorem translate_batch_elementwise (P : Oracle) (now : Int) (st : TransState)
    (texts : List String) (flag : Bool) (st' : TransState) (outs : List (Option String))
    (hen : st.cache_enabled = true) (hwf : wfCache st.cache)
    (h : translate_batch P now st texts flag = .ok (st', outs)) :
    outs.length = texts.length ∧
    ∀ i, i < texts.length →
      (translate P now st (texts.getD i "") flag).2 = .ok (outs.getD i none) := by
  by_cases hemp : texts = []
  · subst hemp
    rw [translate_batch, if_pos rfl] at h
    simp only [Except.ok.injEq, Prod.mk.injEq] at h
    obtain ⟨h1, h2⟩ := h
    rw [← h2]
    exact ⟨rfl, fun i hi => absurd hi (by simp)⟩
  · rw [translate_batch, if_neg hemp, if_pos hen] at h
    rcases hp1 : batchPass P flag st texts with e1 | pr
    · simp only [hp1] at h
      exact Except.noConfusion h
    · obtain ⟨st1, items⟩ := pr
      simp only [hp1] at h
      obtain ⟨hR1, hlen, hidx⟩ := batchPass_spec P flag st hwf hen texts st st1 items
        (reach_refl P st) hp1
      by_cases hunc : todoTexts items = []
      · rw [if_pos hunc] at h
        simp only [Except.ok.injEq, Prod.mk.injEq] at h
        obtain ⟨h1, h2⟩ := h
        refine ⟨by rw [← h2]; simp [hlen], ?_⟩
        intro i hi
        have hh := hidx i hi
        rcases hitem : items.getD i (.done none) with r | t
        · rw [hitem] at hh
          have hmg : (items.map (fun it => match it with
              | BItem.done r => r
              | BItem.todo _ => none)).getD i none = r := by
            rw [getD_map_bitem _ items i (by rw [hlen]; exact hi), hitem]
          rw [← h2, hmg]
          exact hh now
        · exfalso
          have hmem : BItem.todo t ∈ items := by
            rw [← hitem]
            exact getD_mem_of_lt items i _ (by rw [hlen]; exact hi)
          have hmem2 := todoTexts_mem items t hmem
          rw [hunc] at hmem2
          cases hmem2
      · rw [if_neg hunc] at h
        rcases hms : (mTranslateBatch P.gen st1.ms (todoTexts items)).2 with e2 | raws
        · simp only [hms] at h
          exact Except.noConfusion h
        · simp only [hms] at h
          obtain ⟨hload1, hvb, hmap⟩ :=
            mTranslateBatch_ok P.gen st1.ms (todoTexts items) raws hms
          rcases hfmr : (if flag = true then mapExcept (process_text (some st1.opts)) raws
              else Except.ok raws) with e3 | newts
          · simp only [hfmr] at h
            exact Except.noConfusion h
          · simp only [hfmr] at h
            simp only [Except.ok.injEq, Prod.mk.injEq] at h
            obtain ⟨h1, h2⟩ := h
            have halg : Aligned P st.opts flag items (raws.zip newts) := by
              apply aligned_of P st.opts flag items raws newts hmap
              · intro hf
                rw [hf, if_pos rfl] at hfmr
                rw [← hR1.optsEq]
                exact hfmr
              · intro hf
                rw [hf, if_neg (by simp)] at hfmr
                injection hfmr with h'
                exact h'.symm
            have hload0 : st.ms.loaded = true := by
              rw [← hR1.msEq]
              exact hload1
            have hvalid := validate_batch_none _ hvb
            refine ⟨?_, ?_⟩
            · rw [← h2, fillItems_length]
              exact hlen
            · intro i hi
              have hc := fillItems_correct P now flag st st1.current_model_id
                st1.cache_enabled hload0 items texts (raws.zip newts) st1.cache
                hlen hidx halg hvalid i hi now
              rw [← h2]
              exact hc

/-- The inputs of the C1 witness: one cached, one empty, one novel text. -/
def c1wTexts : List String := ["hi", "", "new"]

/-- The successful result of the C1 witness batch call
(`apply_formatting=False`). -/
def c1wPr : TransState × List (Option String) :=
  match translate_batch oracleA 5 stC1 c1wTexts false with
  | .ok pr => pr
  | .error _ => (stC1, [])

/-- C1 (amended): whenever `translate_batch` returns a list at all — which
with the cache enabled and a code-shaped cache (`wfCache`) it does on every
backend-successful `apply_formatting=False` run, and with
`apply_formatting=True` only when no element needs formatting — the list has
the same length as the input, and for every index the i-th output equals the
result of `Translator.translate` on the i-th input in the same cache state,
regardless of which subset of the inputs was already cached.  (With
`apply_formatting=True` and any element needing formatting — an uncached
non-empty text, or an unformatted cache hit — the `lru_cache`-wrapped
`process_text` raises `TypeError` on the options dict and no list is
returned; see the counterexample.) -/
theorem c1_batch_matches_single (P : Oracle) (now : Int) (st : TransState)
    (texts : List String) (flag : Bool) (st' : TransState) (outs : List (Option String))
    (hen : st.cache_enabled = true) (hwf : wfCache st.cache)
    (h : translate_batch P now st texts flag = .ok (st', outs)) :
    outs.length = texts.length ∧
    ∀ i, i < texts.length →
      (translate P now st (texts.getD i "") flag).2 = .ok (outs.getD i none) :=
  translate_batch_elementwise P now st texts flag st' outs hen hwf h

/-- Witness for C1 (amended) on a raw (`apply_formatting=False`) batch mixing
a cached text, an empty string, and a novel text. -/
theorem c1_batch_matches_single_witness :
    stC1.cache_enabled = true ∧ wfCache stC1.cache ∧
    (c1wPr.2.length = c1wTexts.length ∧
      ∀ i, i < c1wTexts.length →
        (translate oracleA 5 stC1 (c1wTexts.getD i "") false).2 =
          .ok (c1wPr.2.getD i none)) :=
  ⟨rfl,
   by
     intro kv hkv
     rw [show stC1.cache = [("hi", entryA)] from rfl, List.mem_singleton] at hkv
     subst hkv
     exact fun _ => rfl,
   c1_batch_matches_single oracleA 5 stC1 c1wTexts false c1wPr.1 c1wPr.2 rfl
     (by
       intro kv hkv
       rw [show stC1.cache = [("hi", entryA)] from rfl, List.mem_singleton] at hkv
       subst hkv
       exact fun _ => rfl) rfl⟩

/-- Counterexample to C1 as stated: with `apply_formatting=True` (the
translator default) and a single uncached text, `translate_batch` returns no
list at all — the backend is called, then the `lru_cache`-wrapped
`process_text` raises `TypeError` on the options dict. -/
theorem c1_fmt_batch_raises_cex :
    translate_batch oracleA 5 stA ["hi"] true =
      .error (.typeError "unhashable type: 'dict'") :=
  rfl

/-! ## C9 — empty-string short-circuit (amended) -/

/-- C9 (amended): `translate("")` returns `""` immediately, touching neither
the cache nor the backend (the state, including the backend call counter, is
exactly unchanged), whether or not the cache is enabled.  In
`translate_batch` WITH the cache enabled (and a code-shaped cache), every
empty-string input maps to an empty-string output.  (With the cache disabled,
empty inputs are instead forwarded to the backend, whose batch validation
raises — see the counterexample.) -/
theorem c9_empty_short_circuit (P : Oracle) (now : Int) (st : TransState)
    (apply_fmt : Bool) (texts : List String) (st' : TransState)
    (outs : List (Option String)) :
    translate P now st "" apply_fmt = (st, .ok (some "")) ∧
    (st.cache_enabled = true → wfCache st.cache →
      translate_batch P now st texts apply_fmt = .ok (st', outs) →
      ∀ i, i < texts.length → texts.getD i "" = "" →
        outs.getD i none = some "") := by
  constructor
  · simp [translate]
  · intro hen hwf h i hi hempty
    have h2 := (translate_batch_elementwise P now st texts apply_fmt st' outs hen hwf h).2 i hi
    rw [hempty] at h2
    simp [translate] at h2
    rw [List.getD_eq_getElem?_getD]
    exact h2.symm

/-- The successful result of the C9 witness batch call
(`apply_formatting=False`). -/
def c9wPr : TransState × List (Option String) :=
  match translate_batch oracleA 3 stA ["", "a"] false with
  | .ok pr => pr
  | .error _ => (stA, [])

/-- Witness for C9 (amended): a single empty translate leaves the fresh state
untouched, and the empty element of an enabled-cache batch maps to `""`. -/
theorem c9_empty_short_circuit_witness :
    translate oracleA 3 stA "" false = (stA, .ok (some "")) ∧
    c9wPr.2.getD 0 none = some "" :=
  ⟨(c9_empty_short_circuit oracleA 3 stA false ["", "a"] c9wPr.1 c9wPr.2).1,
   (c9_empty_short_circuit oracleA 3 stA false ["", "a"] c9wPr.1 c9wPr.2).2 rfl
     (fun kv hkv => absurd hkv (List.not_mem_nil kv)) rfl 0 (by decide) rfl⟩

end NT
